import Mathlib

/-!
Verification of the MPSSE scan engine and XVC protocol layer of the
xvc-server-d2xx repository.  The C sources (`src/mpsse_adapter.c`,
`src/xvc_protocol.c`, `src/ftdi_adapter.c`) are shallowly embedded below:
byte buffers become `List Nat` (each element a byte value), the MPSSE
command/TX stream becomes a list of `Emission` records (one per
`mpsse_buffer_append` call, carrying the TX bytes, the RX byte demand and
the registered RX observer), and the stateful C loops become structurally
recursive Lean functions.
-/

namespace XvcD2xx

/-- The 16 JTAG TAP states.  Both C translation units declare this
enumeration with the same constructor order (`enum jtag_state` in
`mpsse_adapter.c`, `jtag_state_t` in `xvc_protocol.h`), so a single Lean
inductive serves as the embedding of both. -/
inductive JState where
  | testLogicReset
  | runTestIdle
  | selectDRScan
  | captureDR
  | shiftDR
  | exit1DR
  | pauseDR
  | exit2DR
  | updateDR
  | selectIRScan
  | captureIR
  | shiftIR
  | exit1IR
  | pauseIR
  | exit2IR
  | updateIR
deriving DecidableEq, Repr

/-- `next_state` from `mpsse_adapter.c` (lines 279-300): the switch-based
TAP successor function. -/
def next_state (curState : JState) (tmsHigh : Bool) : JState :=
  match curState with
  | .testLogicReset => if tmsHigh then .testLogicReset else .runTestIdle
  | .runTestIdle    => if tmsHigh then .selectDRScan else .runTestIdle
  | .selectDRScan   => if tmsHigh then .selectIRScan else .captureDR
  | .captureDR      => if tmsHigh then .exit1DR else .shiftDR
  | .shiftDR        => if tmsHigh then .exit1DR else .shiftDR
  | .exit1DR        => if tmsHigh then .updateDR else .pauseDR
  | .pauseDR        => if tmsHigh then .exit2DR else .pauseDR
  | .exit2DR        => if tmsHigh then .updateDR else .shiftDR
  | .updateDR       => if tmsHigh then .selectDRScan else .runTestIdle
  | .selectIRScan   => if tmsHigh then .testLogicReset else .captureIR
  | .captureIR      => if tmsHigh then .exit1IR else .shiftIR
  | .shiftIR        => if tmsHigh then .exit1IR else .shiftIR
  | .exit1IR        => if tmsHigh then .updateIR else .pauseIR
  | .pauseIR        => if tmsHigh then .exit2IR else .pauseIR
  | .exit2IR        => if tmsHigh then .updateIR else .shiftIR
  | .updateIR       => if tmsHigh then .selectDRScan else .runTestIdle

/-- The `jtag_next_state` table from `xvc_protocol.c` (lines 25-42);
each row is the pair (successor for tms=0, successor for tms=1). -/
def jtag_next_state (s : JState) : JState × JState :=
  match s with
  | .testLogicReset => (.runTestIdle, .testLogicReset)
  | .runTestIdle    => (.runTestIdle, .selectDRScan)
  | .selectDRScan   => (.captureDR, .selectIRScan)
  | .captureDR      => (.shiftDR, .exit1DR)
  | .shiftDR        => (.shiftDR, .exit1DR)
  | .exit1DR        => (.pauseDR, .updateDR)
  | .pauseDR        => (.pauseDR, .exit2DR)
  | .exit2DR        => (.shiftDR, .updateDR)
  | .updateDR       => (.runTestIdle, .selectDRScan)
  | .selectIRScan   => (.captureIR, .testLogicReset)
  | .captureIR      => (.shiftIR, .exit1IR)
  | .shiftIR        => (.shiftIR, .exit1IR)
  | .exit1IR        => (.pauseIR, .updateIR)
  | .pauseIR        => (.pauseIR, .exit2IR)
  | .exit2IR        => (.shiftIR, .updateIR)
  | .updateIR       => (.runTestIdle, .selectDRScan)

/-- `jtag_step` from `xvc_protocol.c` (lines 94-97):
`jtag_next_state[state][tms ? 1 : 0]`. -/
def jtag_step (state : JState) (tms : Bool) : JState :=
  if tms then (jtag_next_state state).2 else (jtag_next_state state).1

/-- Modelled from the spec: the standard IEEE 1149.1 16-state TAP
successor graph ("Encodes the standard 16-node graph.  Terminal states:
Update-DR and Update-IR return to Run-Test-Idle when tms=0;
Test-Logic-Reset is a self-loop when tms=1"). -/
def ieee1149_next (s : JState) (tms : Bool) : JState :=
  match s, tms with
  | .testLogicReset, true => .testLogicReset
  | .testLogicReset, false => .runTestIdle
  | .runTestIdle, true => .selectDRScan
  | .runTestIdle, false => .runTestIdle
  | .selectDRScan, true => .selectIRScan
  | .selectDRScan, false => .captureDR
  | .captureDR, true => .exit1DR
  | .captureDR, false => .shiftDR
  | .shiftDR, true => .exit1DR
  | .shiftDR, false => .shiftDR
  | .exit1DR, true => .updateDR
  | .exit1DR, false => .pauseDR
  | .pauseDR, true => .exit2DR
  | .pauseDR, false => .pauseDR
  | .exit2DR, true => .updateDR
  | .exit2DR, false => .shiftDR
  | .updateDR, true => .selectDRScan
  | .updateDR, false => .runTestIdle
  | .selectIRScan, true => .testLogicReset
  | .selectIRScan, false => .captureIR
  | .captureIR, true => .exit1IR
  | .captureIR, false => .shiftIR
  | .shiftIR, true => .exit1IR
  | .shiftIR, false => .shiftIR
  | .exit1IR, true => .updateIR
  | .exit1IR, false => .pauseIR
  | .pauseIR, true => .exit2IR
  | .pauseIR, false => .pauseIR
  | .exit2IR, true => .updateIR
  | .exit2IR, false => .shiftIR
  | .updateIR, true => .selectDRScan
  | .updateIR, false => .runTestIdle

/-! ## Bit-buffer primitives (`mpsse_adapter.c` lines 155-176) -/

/-- `get_bit(p, idx) = !!(p[idx / 8] & (1 << (idx % 8)))`.  A buffer is a
list of byte values; reading past the end yields byte 0. -/
def getBit (p : List Nat) (idx : Nat) : Bool :=
  Nat.testBit (p.getD (idx / 8) 0) (idx % 8)

/-- Set or clear bit `k` of the byte `octet` (`*octet |= 1 << k` /
`*octet &= ~(1 << k)`; the complement is taken at `uint8_t` width). -/
def setBitInByte (octet k : Nat) (bit : Bool) : Nat :=
  if bit then octet ||| (1 <<< k) else octet &&& (255 ^^^ (1 <<< k))

/-- `set_bit(p, idx, bit)` from `mpsse_adapter.c`. -/
def setBit (p : List Nat) (idx : Nat) (bit : Bool) : List Nat :=
  p.set (idx / 8) (setBitInByte (p.getD (idx / 8) 0) (idx % 8) bit)

/-- `copy_bits(src, fromIdx, dst, toIdx, numBits, duplicateLastBit)` from
`mpsse_adapter.c` lines 168-176: copy `numBits` bits one by one, in
increasing index order, and optionally duplicate the last copied bit. -/
def copy_bits (src : List Nat) (fromIdx : Nat) (dst : List Nat) (toIdx : Nat) :
    (numBits : Nat) → (duplicateLastBit : Bool) → List Nat
  | 0, duplicateLastBit =>
      if duplicateLastBit then setBit dst toIdx (getBit src (fromIdx - 1)) else dst
  | n + 1, duplicateLastBit =>
      copy_bits src (fromIdx + 1) (setBit dst toIdx (getBit src fromIdx)) (toIdx + 1)
        n duplicateLastBit

/-! ## RX observers and the emission model

Every call the scan engine makes to `mpsse_buffer_append` is recorded as
one `Emission`: the TX bytes appended, the RX byte demand, and the RX
observer registered for those RX bytes (`mpsse_buffer_append` only
enqueues the observer when `rx_bytes > 0`).  Flushing transmits a prefix
of the emission stream unchanged and replays the pending observers in
FIFO order, so all the properties claimed about the command stream and
the observers are properties of this list. -/

/-- The three observer kinds used by the engine
(`bit_copier_rx_observer_fn`, `byte_copier_rx_observer_fn`,
`bulk_byte_copier_rx_observer_fn`). -/
inductive RxObs where
  | bitCopier (fromBit toBit numBits : Nat)
  | byteCopier (dstByte numBytes : Nat)
  | bulkCopier (dstByte totalBytes : Nat)
deriving DecidableEq, Repr

/-- One `mpsse_buffer_append` call: TX bytes, RX demand, observer. -/
structure Emission where
  tx : List Nat
  rx : Nat
  obs : Option RxObs
deriving DecidableEq, Repr

/-- Build an `Emission`; `mpsse_buffer_append` registers the observer only
when `rx_bytes > 0`. -/
def mkEmission (tx : List Nat) (rx : Nat) (o : Option RxObs) : Emission :=
  { tx := tx, rx := rx, obs := if 0 < rx then o else none }

/-- Number of RX staging bytes an observer consumes when it fires:
the bit copier reads bits `fromBit .. fromBit+numBits-1` of its staging
slice; the byte copier memcpys `numBytes`; the bulk copier memcpys
`totalBytes - bytes_copied` with `bytes_copied = 0` at registration. -/
def rxObsLen (o : RxObs) : Nat :=
  match o with
  | .bitCopier f _ n => (f + n + 7) / 8
  | .byteCopier _ n => n
  | .bulkCopier _ n => n

/-- Replay one observer against its RX staging slice `rxData`,
scattering into the TDO buffer `tdo` (the byte copiers memcpy whole
bytes at a byte offset; the bit copier calls `copy_bits`). -/
def applyRxObs (rxData : List Nat) (o : RxObs) (tdo : List Nat) : List Nat :=
  match o with
  | .bitCopier f t n => copy_bits rxData f tdo t n false
  | .byteCopier d n => tdo.take d ++ rxData.take n ++ tdo.drop (d + n)
  | .bulkCopier d n => tdo.take d ++ rxData.take n ++ tdo.drop (d + n)

/-- True iff an (optional) observer is a bit copier. -/
def isBitCopierObs (o : Option RxObs) : Bool :=
  match o with
  | some (.bitCopier _ _ _) => true
  | _ => false

/-! ## MPSSE command emission (`append_tms_shift`, `append_tdi_shift`) -/

/-- The three header bytes of an `OP_CLK_DATA_BYTES_OUT_NEG_IN_POS` (0x39)
command for `n` payload bytes: `{0x39, (n-1) & 0xff, ((n-1) >> 8) & 0xff}`
computed in C `int` arithmetic (arithmetic shift and two's-complement
masking, rendered here as `ediv`/`emod` by 256). -/
def byteShiftHeader (n : Int) : List Nat :=
  [0x39, ((n - 1).emod 256).toNat, (((n - 1).ediv 256).emod 256).toNat]

/-- The TMS pattern byte built by the loop in `append_tms_shift`
(lines 568-573): bit `i` (for `i < k`) carries TMS bit `j + i`. -/
def tmsCmdPattern (tms : List Nat) (j k : Nat) : Nat :=
  (List.range k).foldl (fun acc i => if getBit tms (j + i) then acc ||| (1 <<< i) else acc) 0

/-- `append_tms_shift(ctx, tms, from_bit_idx, to_bit_idx)` from
`mpsse_adapter.c` lines 561-588: chop the TMS run into chunks of at most
6 bits and emit one `{0x4B, k-1, pattern | (last_tdi << 7)}` command per
chunk, with no RX demand and no observer.  `lastTdi` is the engine's
`ctx->last_tdi` latch (not modified by this function). -/
def append_tms_shift (tms : List Nat) (lastTdi : Bool) (fromBitIdx toBitIdx : Nat) :
    List Emission :=
  if h : fromBitIdx < toBitIdx then
    let bitsToTransfer := min (toBitIdx - fromBitIdx) 6
    let tmsByte := tmsCmdPattern tms fromBitIdx bitsToTransfer
    mkEmission [0x4B, bitsToTransfer - 1, tmsByte ||| (if lastTdi then 128 else 0)] 0 none ::
      append_tms_shift tms lastTdi (fromBitIdx + bitsToTransfer) toBitIdx
  else []
termination_by toBitIdx - fromBitIdx
decreasing_by
  have h1 : 1 ≤ min (toBitIdx - fromBitIdx) 6 := by omega
  omega

/-! The run-constant quantities computed by `append_tdi_shift`
(`mpsse_adapter.c` lines 594-600) before its `for (cur_idx ...)` loop,
with `a = from_bit_idx` and `b = to_bit_idx`:
`last_bit_idx = b - 1`, `num_regular_bits = last_bit_idx - a`,
`num_first_octet_bits = 8 - a % 8`, `num_leading_bits`, `leading_only`,
`inner_end_idx` (a C `int`, `-1` for a leading-only run),
`num_trailing_bits` and `total_inner_bytes` (computed, and the bulk
observer allocated, only when `inner_end_idx > from_bit_idx &&
!leading_only`; `total_inner_bytes > 0` is exactly the condition under
which the bulk extra is allocated).  The arithmetic is C `int`
arithmetic, rendered with truncating division `Int.tdiv`. -/

/-- `num_leading_bits` of the run `[a, b)`. -/
def tdiNumLeading (a b : Nat) : Nat :=
  min (if 8 - a % 8 = 8 then 0 else 8 - a % 8) (b - 1 - a)

/-- The byte-aligned upper bound `last_bit_idx - last_bit_idx % 8` (the
value `inner_end_idx` takes when the run is not leading-only). -/
def innerEndIdx (b : Nat) : Nat :=
  (b - 1) - (b - 1) % 8

/-- `inner_end_idx` of the run `[a, b)` as the C `int` value. -/
def tdiInnerEnd (a b : Nat) : Int :=
  if tdiNumLeading a b = b - 1 - a then -1 else (innerEndIdx b : Int)

/-- `num_trailing_bits` of the run `[a, b)`. -/
def tdiNumTrailing (a b : Nat) : Nat :=
  if tdiNumLeading a b = b - 1 - a then 0 else (b - 1) % 8

/-- `total_inner_bytes` of the run `[a, b)`. -/
def tdiTotalInner (a b : Nat) : Nat :=
  if (a : Int) < tdiInnerEnd a b ∧ ¬tdiNumLeading a b = b - 1 - a then
    ((tdiInnerEnd a b - ((a : Int) + tdiNumLeading a b)).tdiv 8).toNat
  else 0

/-- The leading-bits branch of the loop body (`mpsse_adapter.c` lines
620-642): fires when `cur_idx == from_bit_idx && num_leading_bits > 0`;
emits one 0x3B bit-shift covering `TDI[a .. a+num_leading)` with a
one-byte readback deposited right-justified at bit `a`.  Returns the
emissions and the updated `cur_idx`. -/
def tdiBrLead (tdi : List Nat) (a b cur : Nat) : List Emission × Nat :=
  if cur = a ∧ 0 < tdiNumLeading a b then
    ([mkEmission [0x3B, tdiNumLeading a b - 1, (tdi.getD (a / 8) 0) >>> (a % 8)] 1
        (some (.bitCopier (8 - tdiNumLeading a b) a (tdiNumLeading a b)))],
     cur + tdiNumLeading a b)
  else ([], cur)

/-- The whole-bytes branch (lines 644-674): fires when
`cur_idx < last_bit_idx && inner_end_idx > cur_idx`; emits one 0x39
header for `inner_octets_to_send = min((inner_end_idx - cur_idx)/8,
chip_buffer_size)` bytes followed by the TDI payload bytes with an
equal RX demand, registering the bulk observer on the last chunk
(when the bulk extra was allocated) and a plain byte copier otherwise. -/
def tdiBrInner (tdi : List Nat) (a b chipBuf cur : Nat) : List Emission × Nat :=
  if cur < b - 1 ∧ (cur : Int) < tdiInnerEnd a b then
    ([mkEmission
        (byteShiftHeader
          ((min ((tdiInnerEnd a b - (cur : Int)).tdiv 8).toNat chipBuf : Nat) : Int)) 0 none,
      mkEmission
        ((tdi.drop (cur / 8)).take (min ((tdiInnerEnd a b - (cur : Int)).tdiv 8).toNat chipBuf))
        (min ((tdiInnerEnd a b - (cur : Int)).tdiv 8).toNat chipBuf)
        (some
          (if ((min ((tdiInnerEnd a b - (cur : Int)).tdiv 8).toNat chipBuf : Nat) : Int) ≥
                (tdiTotalInner a b : Int) -
                  ((cur : Int) - ((a : Int) + tdiNumLeading a b)).tdiv 8 ∧
              0 < tdiTotalInner a b then
            .bulkCopier ((a + tdiNumLeading a b) / 8) (tdiTotalInner a b)
          else .byteCopier (cur / 8)
            (min ((tdiInnerEnd a b - (cur : Int)).tdiv 8).toNat chipBuf)))],
     cur + (min ((tdiInnerEnd a b - (cur : Int)).tdiv 8).toNat chipBuf) * 8)
  else ([], cur)

/-- The trailing-bits branch (lines 676-698): fires when
`num_trailing_bits > 0 && cur_idx < last_bit_idx`; emits one 0x3B
bit-shift for the `num_trailing_bits` bits before the exit bit, sourced
from `tdi[inner_end_idx / 8]`, with a one-byte readback deposited
right-justified at bit `inner_end_idx`. -/
def tdiBrTrail (tdi : List Nat) (a b cur : Nat) : List Emission × Nat :=
  if 0 < tdiNumTrailing a b ∧ cur < b - 1 then
    ([mkEmission [0x3B, tdiNumTrailing a b - 1, tdi.getD ((tdiInnerEnd a b).toNat / 8) 0] 1
        (some (.bitCopier (8 - tdiNumTrailing a b) (tdiInnerEnd a b).toNat
          (tdiNumTrailing a b)))],
     cur + tdiNumTrailing a b)
  else ([], cur)

/-- The exit-bit branch (lines 700-728): fires when
`cur_idx == last_bit_idx`; emits the 0x6B TMS-with-read command whose
third byte is `(last_tdi_bit << 7) | (last_tms_bit << 1) | last_tms_bit`,
reads one byte back with the TDO bit in position 7 deposited at the exit
bit, and latches `ctx->last_tdi = last_tdi_bit`.  Returns the emissions,
the updated `cur_idx` and the updated latch. -/
def tdiBrExit (tdi : List Nat) (b : Nat) (lastTmsHigh : Bool) (cur : Nat) (ltdi : Bool) :
    List Emission × Nat × Bool :=
  if cur = b - 1 then
    ([mkEmission [0x6B, 0x00,
        (if getBit tdi (b - 1) then 128 else 0) ||| (if lastTmsHigh then 2 else 0) |||
          (if lastTmsHigh then 1 else 0)] 1
        (some (.bitCopier 7 (b - 1) 1))],
     cur + 1, getBit tdi (b - 1))
  else ([], cur, ltdi)

/-- The `for (cur_idx ...)` loop of `append_tdi_shift` (lines 619-729),
one recursive step per loop iteration: the four branches run in sequence
with `cur_idx` threaded through them.  In C the loop runs while
`cur_idx < to_bit_idx` and an iteration of any run the orchestrator can
produce always advances `cur_idx`; the recursion stops if it would not
(unreachable there).  Returns the emissions and the new `last_tdi`. -/
def tdiLoop (tdi : List Nat) (a b : Nat) (lastTmsHigh : Bool) (chipBuf : Nat)
    (cur : Nat) (ltdi : Bool) : List Emission × Bool :=
  if hcur : cur < b then
    let r1 := tdiBrLead tdi a b cur
    let r2 := tdiBrInner tdi a b chipBuf r1.2
    let r3 := tdiBrTrail tdi a b r2.2
    let r4 := tdiBrExit tdi b lastTmsHigh r3.2 ltdi
    if hadv : cur < r4.2.1 then
      let rest := tdiLoop tdi a b lastTmsHigh chipBuf r4.2.1 r4.2.2
      (r1.1 ++ r2.1 ++ r3.1 ++ r4.1 ++ rest.1, rest.2)
    else
      (r1.1 ++ r2.1 ++ r3.1 ++ r4.1, r4.2.2)
  else ([], ltdi)
termination_by b - cur
decreasing_by exact Nat.sub_lt_sub_left hcur hadv

/-- `append_tdi_shift(ctx, tdi, tdo, from_bit_idx, to_bit_idx,
last_tms_bit_high)`: run the loop from `from_bit_idx`. -/
def append_tdi_shift (tdi : List Nat) (fromBitIdx toBitIdx : Nat) (lastTmsHigh : Bool)
    (chipBuf : Nat) (ltdi : Bool) : List Emission × Bool :=
  tdiLoop tdi fromBitIdx toBitIdx lastTmsHigh chipBuf fromBitIdx ltdi

/-! ## Scan orchestrator (`mpsse_adapter_scan`, lines 978-1045) -/

/-- `is_shift`: the TAP-shifting predicate used by the orchestrator. -/
def isShiftState (s : JState) : Bool :=
  s = .shiftDR ∨ s = .shiftIR

/-- The per-bit loop of `mpsse_adapter_scan` (lines 994-1029).  The C
code reads each TMS bit by loading `tms[bit_idx / 8]` and shifting it
right once per bit within the byte, which reads exactly bit
`bit_idx % 8` of that byte, i.e. `getBit tms bit_idx`.  Emits a TDI-shift
run or a TMS-only run at each event boundary.  Returns the emission
stream, the final TAP state and the final `last_tdi` latch. -/
def scanLoop (tms tdi : List Nat) (bits chipBuf : Nat) (bitIdx firstPending : Nat)
    (st : JState) (ltdi : Bool) : List Emission × JState × Bool :=
  if h : bitIdx < bits then
    let tmsBit := getBit tms bitIdx
    let nextJtagState := next_state st tmsBit
    let isShift := isShiftState st
    let nextIsShift := isShiftState nextJtagState
    let enteringShift := !isShift && nextIsShift
    let leavingShift := isShift && !nextIsShift
    let endOfVector := bitIdx = bits - 1
    if endOfVector ∨ enteringShift = true ∨ leavingShift = true then
      let runOut :=
        if isShift then
          append_tdi_shift tdi firstPending (bitIdx + 1) leavingShift chipBuf ltdi
        else
          (append_tms_shift tms ltdi firstPending (bitIdx + 1), ltdi)
      let rest := scanLoop tms tdi bits chipBuf (bitIdx + 1) (bitIdx + 1)
        nextJtagState runOut.2
      (runOut.1 ++ rest.1, rest.2)
    else
      scanLoop tms tdi bits chipBuf (bitIdx + 1) firstPending nextJtagState ltdi
  else ([], st, ltdi)
termination_by bits - bitIdx

/-- `mpsse_adapter_scan(ctx, tms, tdi, tdo, bits)`: run the per-bit loop
from bit 0 with `first_pending_bit_idx = 0`, the session TAP state and
the session `last_tdi` latch; `ctx->chip_buffer_size` is 65536 (set both
in `mpsse_adapter_create` and `mpsse_adapter_open`). -/
def mpsse_adapter_scan (tms tdi : List Nat) (bits : Nat) (st : JState) (ltdi : Bool) :
    List Emission × JState × Bool :=
  scanLoop tms tdi bits 65536 0 0 st ltdi

/-! ## Command counting and RX accounting -/

/-- An emission is the header of a 0x39 byte-shift command iff it demands
no RX bytes and its first TX byte is 0x39 (TMS commands start with 0x4B,
and all other emissions demand RX bytes or are empty). -/
def isCmd39Hdr (e : Emission) : Bool :=
  e.rx == 0 && e.tx.head? == some 0x39

/-- An emission is a 0x3B bit-shift command iff it demands exactly one RX
byte and its TX part is the three bytes starting 0x3B (a one-byte data
payload never has three TX bytes together with a one-byte RX demand). -/
def isCmd3B (e : Emission) : Bool :=
  e.rx == 1 && e.tx.length == 3 && e.tx.head? == some 0x3B

/-- An emission is a 0x6B TMS-with-read (exit bit) command iff it demands
one RX byte and starts with 0x6B. -/
def isCmd6B (e : Emission) : Bool :=
  e.rx == 1 && e.tx.head? == some 0x6B

/-- Shape of a bit-granularity (0x3B) readback emission: its observer is
a bit copier reading `n` bits (`1 ≤ n ≤ 7`) right-justified from bit
position `8 - n` of a single reply byte (`rx = 1`), with the command
length byte `n - 1`. -/
def bitReadbackOk (e : Emission) : Prop :=
  isBitCopierObs e.obs = true ∧
  ∀ f p n, e.obs = some (RxObs.bitCopier f p n) →
    1 ≤ n ∧ n ≤ 7 ∧ f = 8 - n ∧ e.tx.getD 1 0 = n - 1 ∧ e.rx = 1

/-- Total RX bytes demanded by a list of emissions (= `rx_len`). -/
def emsRxBytes (ems : List Emission) : Nat :=
  (ems.map (fun e => e.rx)).sum

/-- RX staging bytes consumed by one emission's observer (0 when the
emission registered none). -/
def emObsBytes (e : Emission) : Nat :=
  match e.obs with
  | some o => rxObsLen o
  | none => 0

/-- Total RX staging bytes consumed by the observers appended for a list
of emissions, each consuming its declared source length. -/
def emsObsBytes (ems : List Emission) : Nat :=
  (ems.map emObsBytes).sum

/-! ## Closed-form characterization of a single-chunk TDI-shift run

The following definitions are not translations of C code; they are the
explicit emission segments of `append_tdi_shift` for a run whose
whole-byte region fits in one chip-buffer chunk (≤ 65536 bytes — every
run this server can produce, since the XVC layer chunks scans at 1024
bytes), used to state the characterization lemma. -/

/-- The leading-bits 0x3B emission of the run `[a, b)` (empty when the
run starts on a byte boundary or has no regular bits). -/
def tdiLeadSeg (tdi : List Nat) (a b : Nat) : List Emission :=
  if 0 < tdiNumLeading a b then
    [⟨[0x3B, tdiNumLeading a b - 1, (tdi.getD (a / 8) 0) >>> (a % 8)], 1,
      some (.bitCopier (8 - tdiNumLeading a b) a (tdiNumLeading a b))⟩]
  else []

/-- The whole-byte 0x39 header and payload emissions of the run `[a, b)`
(single chunk). -/
def tdiInnerSeg (tdi : List Nat) (a b : Nat) : List Emission :=
  if 0 < tdiTotalInner a b then
    [⟨byteShiftHeader (tdiTotalInner a b), 0, none⟩,
     ⟨(tdi.drop ((a + tdiNumLeading a b) / 8)).take (tdiTotalInner a b), tdiTotalInner a b,
      some (.bulkCopier ((a + tdiNumLeading a b) / 8) (tdiTotalInner a b))⟩]
  else []

/-- The trailing-bits 0x3B emission of the run `[a, b)`. -/
def tdiTrailSeg (tdi : List Nat) (a b : Nat) : List Emission :=
  if 0 < tdiNumTrailing a b then
    [⟨[0x3B, tdiNumTrailing a b - 1, tdi.getD (innerEndIdx b / 8) 0], 1,
      some (.bitCopier (8 - tdiNumTrailing a b) (innerEndIdx b) (tdiNumTrailing a b))⟩]
  else []

/-- The exit-bit 0x6B emission of the run `[a, b)`: TDI bit of
`TDI[b-1]`, the TMS bit doubled into positions 0 and 1, the TDO bit read
back from position 7 of the reply byte and deposited at bit `b-1`. -/
def tdiExitEm (tdi : List Nat) (b : Nat) (lastTmsHigh : Bool) : Emission :=
  ⟨[0x6B, 0x00,
     (if getBit tdi (b - 1) then 128 else 0) ||| (if lastTmsHigh then 2 else 0) |||
       (if lastTmsHigh then 1 else 0)], 1,
   some (.bitCopier 7 (b - 1) 1)⟩

/-! ## Chunked scan (`ftdi_adapter_scan_chunked`, `ftdi_adapter.c` 174-240)

`ftdi_adapter_scan` simply forwards to `mpsse_adapter_scan`.  The chunked
helper either performs one whole scan (when the vector fits in
`chunk_bytes` bytes) or splits the vector at `chunk_bytes`-byte
boundaries into byte-aligned sub-vectors, scanning each independently and
memcpy-ing each chunk's TDO bytes back at the chunk's byte offset.  Here
the sub-scans are represented by the list of `(byte_offset, bits)` calls
made to `ftdi_adapter_scan`, and the device's response to a sub-scan is
an oracle `f byte_offset bits` giving the chunk's TDO bytes. -/

/-- The `while (bits_processed < bits)` loop: one `(byte_offset,
current_chunk_bits)` entry per `ftdi_adapter_scan` call.  The C caller
always passes a positive `chunk_bytes` (1024 from the XVC layer, or the
4096 default); the `chunkBits = 0` guard only forces totality. -/
def chunkLoop (bits chunkBits processed : Nat) : List (Nat × Nat) :=
  if h : processed < bits ∧ 0 < chunkBits then
    let currentChunkBits := min chunkBits (bits - processed)
    (processed / 8, currentChunkBits) :: chunkLoop bits chunkBits (processed + currentChunkBits)
  else []
termination_by bits - processed
decreasing_by omega

/-- The list of `ftdi_adapter_scan` calls made by
`ftdi_adapter_scan_chunked(..., bits, chunk_bytes)` for `bits > 0`. -/
def ftdiChunkedCalls (bits chunkBytes : Nat) : List (Nat × Nat) :=
  let cb := if chunkBytes = 0 then 4096 else chunkBytes
  if (bits + 7) / 8 ≤ cb then [(0, bits)]
  else chunkLoop bits (cb * 8) 0

/-- `memcpy(buf + off, src, src.length)` on a byte-list buffer. -/
def writeBytesAt (buf : List Nat) (off : Nat) (src : List Nat) : List Nat :=
  buf.take off ++ src ++ buf.drop (off + src.length)

/-- The TDO bytes produced by `ftdi_adapter_scan_chunked`: in the
single-chunk case the scan writes directly into the caller's buffer; in
the chunked case the output buffer is zeroed and each chunk's TDO bytes
(`current_chunk_bytes` of them) are memcpy-ed back at the chunk's byte
offset. -/
def ftdiChunkedTdo (f : Nat → Nat → List Nat) (bits chunkBytes : Nat) : List Nat :=
  let cb := if chunkBytes = 0 then 4096 else chunkBytes
  if (bits + 7) / 8 ≤ cb then f 0 bits
  else
    (chunkLoop bits (cb * 8) 0).foldl
      (fun acc oc => writeBytesAt acc oc.1 ((f oc.1 oc.2).take ((oc.2 + 7) / 8)))
      (List.replicate ((bits + 7) / 8) 0)

/-! ## XVC protocol layer (`xvc_protocol.c`) -/

/-- `xvc_get_int32`: little-endian signed 32-bit read. -/
def xvc_get_int32 (data : List Nat) : Int :=
  let u := data.getD 0 0 + 256 * data.getD 1 0 + 65536 * data.getD 2 0 +
    16777216 * data.getD 3 0
  if u < 2147483648 then (u : Int) else (u : Int) - 4294967296

/-- Per-session XVC state: the session TAP state, the `seen_tlr` flag and
the configured `max_vector_size` (in bytes). -/
structure XvcCtx where
  jtagState : JState
  seenTlr : Bool
  maxVectorSize : Nat
deriving DecidableEq, Repr

/-- Outcome of handling one XVC command: `connErr` models the `return -1`
paths of `xvc_handle` (connection closed, no reply written, and in the
shift paths taken before any scan, no scan performed); `reply` carries
the updated session state, the reply bytes written to the client, the
list of `ftdi_adapter_scan` sub-scan calls performed, and the `stop` flag
(true iff the do-while loop exits instead of reading the next command). -/
inductive XvcOutcome where
  | connErr
  | reply (ctx : XvcCtx) (replyBytes : List Nat) (scans : List (Nat × Nat)) (stop : Bool)
deriving DecidableEq, Repr

/-- The JTAG state-machine update loop of the shift handler
(`xvc_protocol.c` lines 284-287): step once per bit with
`tms = !!(vector_buf[i/8] & (1 << (i & 7)))`. -/
def jtagRun (s : JState) (tms : List Nat) (len : Nat) : JState :=
  (List.range len).foldl (fun st i => jtag_step st (getBit tms i)) s

/-- The `shift:` branch of `xvc_handle` (lines 232-320) after the TMS and
TDI vectors have been read: check the vector-size bound, update
`seen_tlr`, test the Xilinx-workaround skip pattern, and either drop the
shift (zero TDO reply, state unchanged) or advance the TAP state and run
the scan through `ftdi_adapter_scan_chunked` with 1024-byte chunks.
`ftdi_adapter_scan_chunked` fails (hence `xvc_handle` returns -1) when
`bits <= 0`.  `f` is the device TDO oracle for the sub-scans. -/
def xvc_shift (ctx : XvcCtx) (f : Nat → Nat → List Nat) (len : Int)
    (tms tdi : List Nat) : XvcOutcome :=
  let nrBytes : Int := (len + 7).tdiv 8
  if (ctx.maxVectorSize : Int) < nrBytes then .connErr
  else
    let seenTlr := (ctx.seenTlr || ctx.jtagState == .testLogicReset) &&
      !(ctx.jtagState == .captureDR) && !(ctx.jtagState == .captureIR)
    let skip := (ctx.jtagState == .exit1IR && len == 5 && tms.getD 0 0 == 0x17) ||
      (ctx.jtagState == .exit1DR && len == 4 && tms.getD 0 0 == 0x0b)
    if skip then
      .reply { ctx with seenTlr := seenTlr } (List.replicate nrBytes.toNat 0) []
        (seenTlr && ctx.jtagState == .runTestIdle)
    else
      let newState := jtagRun ctx.jtagState tms len.toNat
      if len ≤ 0 then .connErr
      else
        .reply { ctx with seenTlr := seenTlr, jtagState := newState }
          (ftdiChunkedTdo f len.toNat 1024)
          (ftdiChunkedCalls len.toNat 1024)
          (seenTlr && newState == .runTestIdle)

/-- The `getinfo:` reply string `"xvcServer_v1.0:<max_vector_size>\n"`
as bytes (the leading bytes spell `xvcServer_v1.0:`). -/
def xvc_info_bytes (n : Nat) : List Nat :=
  [120, 118, 99, 83, 101, 114, 118, 101, 114, 95, 118, 49, 46, 48, 58] ++
    (Nat.toDigits 10 n).map Char.toNat ++ [10]

/-- The command dispatch of `xvc_handle` (lines 175-327): match the two
command-tag bytes against `"ge"`, `"se"`, `"sh"`; anything else is an
error (`return -1`, connection closed, no scan, no reply).  `rest` holds
the remaining request bytes of a `shift:` command (4 ignored bytes of
`"ift:"`, the 4-byte length, then the TMS and TDI vectors);
`tckReplyBytes` abstracts the 4-byte `settck:` reply, which depends on
the device. -/
def xvc_dispatch (ctx : XvcCtx) (f : Nat → Nat → List Nat) (tckReplyBytes : List Nat)
    (b0 b1 : Nat) (rest : List Nat) : XvcOutcome :=
  if b0 = 103 ∧ b1 = 101 then
    .reply ctx (xvc_info_bytes ctx.maxVectorSize) [] true
  else if b0 = 115 ∧ b1 = 101 then
    .reply ctx tckReplyBytes [] true
  else if b0 = 115 ∧ b1 = 104 then
    let len := xvc_get_int32 (rest.drop 4)
    let nrBytes := ((len + 7).tdiv 8).toNat
    xvc_shift ctx f len ((rest.drop 8).take nrBytes)
      ((rest.drop (8 + nrBytes)).take nrBytes)
  else .connErr

/-- Iterate `xvc_shift` over a list of `(len, tms, tdi)` shift requests,
threading the session state and recording the final `stop` flag; `none`
models a `return -1` (connection error) along the way. -/
def xvc_run_shifts (f : Nat → Nat → List Nat) :
    XvcCtx → Bool → List (Int × List Nat × List Nat) → Option (XvcCtx × Bool)
  | ctx, stop, [] => some (ctx, stop)
  | ctx, _, (len, tms, tdi) :: rest =>
    match xvc_shift ctx f len tms tdi with
    | .connErr => none
    | .reply ctx2 _ _ stop2 => xvc_run_shifts f ctx2 stop2 rest

/-- Modelled from the spec: the claim's description of `seen_tlr` —
"becoming true once the TAP has visited Test-Logic-Reset since the start
of the session and remaining true except when the TAP is currently in
Capture-DR or Capture-IR".  `visitedTlr` records whether the TAP has
visited Test-Logic-Reset since the start of the session, and `s` is the
current TAP state. -/
def seenTlrClaim (visitedTlr : Bool) (s : JState) : Bool :=
  visitedTlr && !(s == .captureDR) && !(s == .captureIR)

/-! ## Basic lemmas about the bit primitives -/

theorem getD_replicate (n i a d : Nat) :
    (List.replicate n a).getD i d = if i < n then a else d := by
  simp [List.getD_eq_getElem?_getD, List.getElem?_replicate]
  split <;> rfl

theorem getBit_replicate_zero (m i : Nat) : getBit (List.replicate m 0) i = false := by
  simp [getBit, getD_replicate]

theorem testBit_tmsCmdPattern (tms : List Nat) (j t : Nat) :
    ∀ k, Nat.testBit (tmsCmdPattern tms j k) t =
      if t < k then getBit tms (j + t) else false := by
  intro k
  induction k with
  | zero => simp [tmsCmdPattern]
  | succ k ih =>
    have hstep : tmsCmdPattern tms j (k + 1) =
        if getBit tms (j + k) then tmsCmdPattern tms j k ||| (1 <<< k)
        else tmsCmdPattern tms j k := by
      simp [tmsCmdPattern, List.range_succ]
    rw [hstep]
    by_cases hb : getBit tms (j + k)
    · rw [if_pos hb, Nat.testBit_lor, ih, Nat.one_shiftLeft]
      by_cases htk : t = k
      · subst htk
        simp [Nat.testBit_two_pow_self, hb]
      · rw [Nat.testBit_two_pow_of_ne (fun h => htk h.symm)]
        by_cases hlt : t < k
        · simp [hlt, Nat.lt_succ_of_lt hlt]
        · have : ¬ t < k + 1 := by omega
          simp [hlt, this]
    · rw [if_neg hb, ih]
      by_cases hlt : t < k
      · simp [hlt, Nat.lt_succ_of_lt hlt]
      · by_cases htk : t = k
        · subst htk
          simp [hb]
        · have h1 : ¬ t < k + 1 := by omega
          simp [hlt, h1]

theorem tmsCmdPattern_lt_64 (tms : List Nat) (j : Nat) :
    ∀ k, k ≤ 6 → tmsCmdPattern tms j k < 64 := by
  have key : ∀ k, tmsCmdPattern tms j k < 2 ^ k := by
    intro k
    induction k with
    | zero => simp [tmsCmdPattern]
    | succ k ih =>
      have hstep : tmsCmdPattern tms j (k + 1) =
          if getBit tms (j + k) then tmsCmdPattern tms j k ||| (1 <<< k)
          else tmsCmdPattern tms j k := by
        simp [tmsCmdPattern, List.range_succ]
      rw [hstep]
      have hpow : (2 : Nat) ^ k ≤ 2 ^ (k + 1) := Nat.pow_le_pow_right (by omega) (by omega)
      split
      · exact Nat.or_lt_two_pow (by omega)
          (by rw [Nat.one_shiftLeft]; exact Nat.pow_lt_pow_right (by omega) (by omega))
      · omega
  intro k hk
  have h1 := key k
  have h2 : (2 : Nat) ^ k ≤ 64 := by
    calc (2:Nat) ^ k ≤ 2 ^ 6 := Nat.pow_le_pow_right (by omega) hk
    _ = 64 := by norm_num
  omega

theorem testBit_setBitInByte_self (o k : Nat) (v : Bool) (hk : k < 8) :
    Nat.testBit (setBitInByte o k v) k = v := by
  cases v with
  | true =>
    simp only [setBitInByte, if_pos]
    rw [Nat.testBit_lor, Nat.one_shiftLeft, Nat.testBit_two_pow_self, Bool.or_true]
  | false =>
    simp only [setBitInByte, Bool.false_eq_true, if_false]
    rw [Nat.testBit_land, Nat.testBit_xor, Nat.one_shiftLeft, Nat.testBit_two_pow_self]
    have h255 : Nat.testBit 255 k = true := by
      have : (255 : Nat) = 2 ^ 8 - 1 := by norm_num
      rw [this, Nat.testBit_two_pow_sub_one]
      simp [hk]
    rw [h255]
    simp

theorem testBit_setBitInByte_ne (o k t : Nat) (v : Bool) (ht : t < 8) (hne : t ≠ k) :
    Nat.testBit (setBitInByte o k v) t = Nat.testBit o t := by
  cases v with
  | true =>
    simp only [setBitInByte, if_pos]
    rw [Nat.testBit_lor, Nat.one_shiftLeft, Nat.testBit_two_pow_of_ne (fun h => hne h.symm)]
    simp
  | false =>
    simp only [setBitInByte, Bool.false_eq_true, if_false]
    rw [Nat.testBit_land, Nat.testBit_xor, Nat.one_shiftLeft,
      Nat.testBit_two_pow_of_ne (fun h => hne h.symm)]
    have h255 : Nat.testBit 255 t = true := by
      have : (255 : Nat) = 2 ^ 8 - 1 := by norm_num
      rw [this, Nat.testBit_two_pow_sub_one]
      simp [ht]
    rw [h255]
    simp

theorem length_setBit (p : List Nat) (i : Nat) (v : Bool) :
    (setBit p i v).length = p.length := by
  simp [setBit]

theorem getBit_setBit_self (p : List Nat) (idx : Nat) (v : Bool)
    (h : idx / 8 < p.length) : getBit (setBit p idx v) idx = v := by
  unfold getBit setBit
  rw [List.getD_eq_getElem?_getD, List.getElem?_set_self h]
  simp only [Option.getD_some]
  exact testBit_setBitInByte_self _ _ v (Nat.mod_lt _ (by omega))

theorem getBit_setBit_ne (p : List Nat) (idx j : Nat) (v : Bool) (hne : j ≠ idx) :
    getBit (setBit p idx v) j = getBit p j := by
  unfold getBit setBit
  by_cases hb : idx / 8 = j / 8
  · by_cases hlen : idx / 8 < p.length
    · rw [List.getD_eq_getElem?_getD, hb, List.getElem?_set_self (hb ▸ hlen)]
      simp only [Option.getD_some]
      rw [← hb]
      have hmod : j % 8 ≠ idx % 8 := by
        intro he
        exact hne (by omega)
      rw [testBit_setBitInByte_ne _ _ _ _ (Nat.mod_lt _ (by omega)) hmod,
        List.getD_eq_getElem?_getD, hb]
    · rw [List.set_eq_of_length_le (by omega)]
  · rw [List.getD_eq_getElem?_getD, List.getElem?_set_ne hb, ← List.getD_eq_getElem?_getD]

theorem copy_bits_length (src : List Nat) :
    ∀ (n fromIdx : Nat) (dst : List Nat) (toIdx : Nat),
      (copy_bits src fromIdx dst toIdx n false).length = dst.length := by
  intro n
  induction n with
  | zero => intro fromIdx dst toIdx; rfl
  | succ n ih =>
    intro fromIdx dst toIdx
    rw [copy_bits, ih, length_setBit]

theorem getBit_copy_bits_lt (src : List Nat) :
    ∀ (n fromIdx : Nat) (dst : List Nat) (toIdx j : Nat), j < toIdx →
      getBit (copy_bits src fromIdx dst toIdx n false) j = getBit dst j := by
  intro n
  induction n with
  | zero => intro fromIdx dst toIdx j _; rfl
  | succ n ih =>
    intro fromIdx dst toIdx j hj
    rw [copy_bits, ih _ _ _ _ (by omega), getBit_setBit_ne _ _ _ _ (by omega)]

theorem getBit_copy_bits_in (src : List Nat) :
    ∀ (n fromIdx : Nat) (dst : List Nat) (toIdx i : Nat), i < n →
      toIdx + n ≤ 8 * dst.length →
      getBit (copy_bits src fromIdx dst toIdx n false) (toIdx + i) =
        getBit src (fromIdx + i) := by
  intro n
  induction n with
  | zero => intro fromIdx dst toIdx i hi; omega
  | succ n ih =>
    intro fromIdx dst toIdx i hi hroom
    rw [copy_bits]
    cases i with
    | zero =>
      simp only [Nat.add_zero]
      rw [getBit_copy_bits_lt src n (fromIdx + 1) _ (toIdx + 1) toIdx (by omega),
        getBit_setBit_self _ _ _ (by omega)]
    | succ i =>
      have h1 : toIdx + (i + 1) = (toIdx + 1) + i := by omega
      have h2 : fromIdx + (i + 1) = (fromIdx + 1) + i := by omega
      rw [h1, h2, ih (fromIdx + 1) (setBit dst toIdx (getBit src fromIdx)) (toIdx + 1) i
        (by omega) (by rw [length_setBit]; omega)]

/-! ## Characterization of a single-chunk TDI-shift run -/

theorem tdiv8_toNat (m : Nat) : ((m : Int).tdiv 8).toNat = m / 8 := rfl

theorem tdiNumLeading_le (a b : Nat) :
    tdiNumLeading a b ≤ b - 1 - a ∧ tdiNumLeading a b ≤ 7 := by
  unfold tdiNumLeading
  split <;> omega

theorem innerEndIdx_mod (b : Nat) : innerEndIdx b % 8 = 0 ∧ innerEndIdx b ≤ b - 1 := by
  unfold innerEndIdx
  omega

theorem tdiAligned (a b : Nat) (hab : a < b) (hnl : ¬tdiNumLeading a b = b - 1 - a) :
    (a + tdiNumLeading a b) % 8 = 0 ∧ a + tdiNumLeading a b ≤ innerEndIdx b ∧
    tdiTotalInner a b = (innerEndIdx b - (a + tdiNumLeading a b)) / 8 := by
  have hle := tdiNumLeading_le a b
  have hmod : (a + tdiNumLeading a b) % 8 = 0 := by
    unfold tdiNumLeading at *
    by_cases h8 : 8 - a % 8 = 8
    · rw [if_pos h8] at *
      omega
    · rw [if_neg h8] at *
      omega
  have hIEn := innerEndIdx_mod b
  have hle2 : a + tdiNumLeading a b ≤ innerEndIdx b := by
    unfold innerEndIdx
    omega
  refine ⟨hmod, hle2, ?_⟩
  have hIE : tdiInnerEnd a b = (innerEndIdx b : Int) := by
    unfold tdiInnerEnd
    rw [if_neg hnl]
  unfold tdiTotalInner
  rw [hIE]
  by_cases hai : a < innerEndIdx b
  · rw [if_pos ⟨by exact_mod_cast hai, hnl⟩]
    have hcast : (innerEndIdx b : Int) - ((a : Int) + (tdiNumLeading a b : Int)) =
        ((innerEndIdx b - (a + tdiNumLeading a b) : Nat) : Int) := by omega
    rw [hcast, tdiv8_toNat]
  · rw [if_neg (fun hc => hai (by exact_mod_cast hc.1))]
    omega

theorem tdiBrLead_at_start (tdi : List Nat) (a b : Nat) :
    tdiBrLead tdi a b a = (tdiLeadSeg tdi a b, a + tdiNumLeading a b) := by
  unfold tdiBrLead tdiLeadSeg
  by_cases h : 0 < tdiNumLeading a b
  · rw [if_pos ⟨rfl, h⟩, if_pos h]
    rfl
  · rw [if_neg (fun hc => h hc.2), if_neg h]
    have h0 : tdiNumLeading a b = 0 := by omega
    rw [h0, Nat.add_zero]

theorem tdiBrInner_eval (tdi : List Nat) (a b : Nat) (hab : a < b)
    (hsize : b - a ≤ 524288) :
    tdiBrInner tdi a b 65536 (a + tdiNumLeading a b) =
      (tdiInnerSeg tdi a b, a + tdiNumLeading a b + tdiTotalInner a b * 8) := by
  by_cases hlo : tdiNumLeading a b = b - 1 - a
  · have hIE : tdiInnerEnd a b = -1 := by
      unfold tdiInnerEnd
      rw [if_pos hlo]
    have hTI : tdiTotalInner a b = 0 := by
      unfold tdiTotalInner
      rw [if_neg (fun hc => hc.2 hlo)]
    unfold tdiBrInner tdiInnerSeg
    rw [hIE, hTI]
    rw [if_neg (fun hc => by have h2 := hc.2; omega), if_neg (by omega)]
    simp
  · obtain ⟨hmod, hle2, hTIeq⟩ := tdiAligned a b hab hlo
    have hIE : tdiInnerEnd a b = (innerEndIdx b : Int) := by
      unfold tdiInnerEnd
      rw [if_neg hlo]
    have hIEn := innerEndIdx_mod b
    by_cases hti : 0 < tdiTotalInner a b
    · have hcurlt : a + tdiNumLeading a b < innerEndIdx b := by omega
      have hblt : a + tdiNumLeading a b < b - 1 := by omega
      have hsub : (innerEndIdx b : Int) - ((a + tdiNumLeading a b : Nat) : Int) =
          ((innerEndIdx b - (a + tdiNumLeading a b) : Nat) : Int) := by omega
      have hn : min ((tdiInnerEnd a b - ((a + tdiNumLeading a b : Nat) : Int)).tdiv 8).toNat
          65536 = tdiTotalInner a b := by
        rw [hIE, hsub, tdiv8_toNat]
        omega
      unfold tdiBrInner tdiInnerSeg
      rw [if_pos ⟨hblt, by rw [hIE]; exact_mod_cast hcurlt⟩, if_pos hti, hn]
      have hzero : ((a + tdiNumLeading a b : Nat) : Int) -
          ((a : Int) + (tdiNumLeading a b : Int)) = 0 := by push_cast; ring
      rw [hzero, Int.zero_tdiv, Int.sub_zero]
      rw [if_pos ⟨le_refl _, hti⟩]
      simp [mkEmission, hti]
    · have hIEeq : innerEndIdx b = a + tdiNumLeading a b := by omega
      have hTI0 : tdiTotalInner a b = 0 := by omega
      unfold tdiBrInner tdiInnerSeg
      rw [hIE]
      rw [if_neg (fun hc => by have h2 := hc.2; omega), if_neg hti]
      rw [hTI0]
      simp

theorem tdiBrTrail_eval (tdi : List Nat) (a b : Nat) (hab : a < b) :
    tdiBrTrail tdi a b (a + tdiNumLeading a b + tdiTotalInner a b * 8) =
      (tdiTrailSeg tdi a b, b - 1) := by
  by_cases hlo : tdiNumLeading a b = b - 1 - a
  · have hNT : tdiNumTrailing a b = 0 := by
      unfold tdiNumTrailing
      rw [if_pos hlo]
    have hTI : tdiTotalInner a b = 0 := by
      unfold tdiTotalInner
      rw [if_neg (fun hc => hc.2 hlo)]
    unfold tdiBrTrail tdiTrailSeg
    rw [hNT, hTI]
    rw [if_neg (by omega), if_neg (by omega)]
    have hc : a + tdiNumLeading a b + 0 * 8 = b - 1 := by omega
    rw [hc]
  · obtain ⟨hmod, hle2, hTIeq⟩ := tdiAligned a b hab hlo
    have hIEn := innerEndIdx_mod b
    have hNT : tdiNumTrailing a b = (b - 1) % 8 := by
      unfold tdiNumTrailing
      rw [if_neg hlo]
    have hIE : tdiInnerEnd a b = (innerEndIdx b : Int) := by
      unfold tdiInnerEnd
      rw [if_neg hlo]
    have hcur : a + tdiNumLeading a b + tdiTotalInner a b * 8 = innerEndIdx b := by
      unfold innerEndIdx at *
      omega
    by_cases hnt : 0 < tdiNumTrailing a b
    · have hlt : innerEndIdx b < b - 1 := by
        unfold innerEndIdx at *
        omega
      unfold tdiBrTrail tdiTrailSeg
      rw [hcur, hIE]
      rw [if_pos ⟨hnt, hlt⟩, if_pos hnt, Int.toNat_ofNat]
      have hend : innerEndIdx b + tdiNumTrailing a b = b - 1 := by
        unfold innerEndIdx at *
        omega
      rw [hend]
      rfl
    · have hend : innerEndIdx b = b - 1 := by
        unfold innerEndIdx at *
        omega
      unfold tdiBrTrail tdiTrailSeg
      rw [hcur, hend]
      rw [if_neg (fun hc => hnt hc.1), if_neg hnt]
theorem tdiBrExit_fires (tdi : List Nat) (b : Nat) (lastTmsHigh : Bool) (ltdi : Bool) :
    tdiBrExit tdi b lastTmsHigh (b - 1) ltdi =
      ([tdiExitEm tdi b lastTmsHigh], b - 1 + 1, getBit tdi (b - 1)) := by
  unfold tdiBrExit tdiExitEm
  rw [if_pos rfl]
  rfl

/-- The single-chunk characterization of `append_tdi_shift`: for any run
`[a, b)` whose length is at most 524288 bits (so its whole-byte region is
at most 65536 bytes, one chip-buffer chunk — this covers every run the
server can emit, since the XVC layer chunks scans at 1024 bytes), the
loop performs exactly one iteration, emitting the leading 0x3B command,
one 0x39 header plus payload, the trailing 0x3B command and the exit 0x6B
command, in that order, and latches `last_tdi = TDI[b-1]`. -/
theorem append_tdi_shift_single_chunk (tdi : List Nat) (a b : Nat)
    (lastTmsHigh ltdi : Bool) (hab : a < b) (hsize : b - a ≤ 524288) :
    append_tdi_shift tdi a b lastTmsHigh 65536 ltdi =
      (tdiLeadSeg tdi a b ++ tdiInnerSeg tdi a b ++ tdiTrailSeg tdi a b ++
        [tdiExitEm tdi b lastTmsHigh], getBit tdi (b - 1)) := by
  have hb1 : b - 1 + 1 = b := by omega
  unfold append_tdi_shift
  rw [tdiLoop]
  rw [dif_pos hab]
  simp only [tdiBrLead_at_start tdi a b, tdiBrInner_eval tdi a b hab hsize,
    tdiBrTrail_eval tdi a b hab, tdiBrExit_fires tdi b lastTmsHigh ltdi, hb1]
  rw [dif_pos hab]
  rw [tdiLoop]
  rw [dif_neg (lt_irrefl b)]
  simp

/-! ## Claim theorems -/

/-- C1: the two TAP step functions — `next_state` in the MPSSE adapter
and `jtag_step` (driven by the `jtag_next_state` table) in the XVC
protocol layer — compute the same successor for every (state, TMS) pair,
and that successor is the standard IEEE 1149.1 16-state graph; in
particular Update-DR and Update-IR go to Run-Test-Idle on tms=0 and
Test-Logic-Reset is a self-loop on tms=1. -/
theorem C1_tap_step_equiv (s : JState) (tms : Bool) :
    next_state s tms = jtag_step s tms ∧
    jtag_step s tms = ieee1149_next s tms ∧
    jtag_step .updateDR false = .runTestIdle ∧
    jtag_step .updateIR false = .runTestIdle ∧
    jtag_step .testLogicReset true = .testLogicReset := by
  cases s <;> cases tms <;> exact ⟨rfl, rfl, rfl, rfl, rfl⟩

theorem append_tms_shift_length (tms : List Nat) (lastTdi : Bool) :
    ∀ d a b, b - a = d → (append_tms_shift tms lastTdi a b).length = (b - a + 5) / 6 := by
  intro d
  induction d using Nat.strong_induction_on with
  | _ d ih =>
    intro a b hd
    rw [append_tms_shift]
    split
    · next hab =>
      simp only [List.length_cons]
      rw [ih (b - (a + min (b - a) 6)) (by omega) (a + min (b - a) 6) b rfl]
      omega
    · next hab =>
      simp only [List.length_nil]
      omega

theorem append_tms_shift_getD (tms : List Nat) (lastTdi : Bool) (b : Nat) :
    ∀ d a i, b - a = d → i < (b - a + 5) / 6 →
      (append_tms_shift tms lastTdi a b).getD i ⟨[], 0, none⟩ =
        ⟨[0x4B, min (b - (a + 6 * i)) 6 - 1,
           tmsCmdPattern tms (a + 6 * i) (min (b - (a + 6 * i)) 6) |||
             (if lastTdi then 128 else 0)], 0, none⟩ := by
  intro d
  induction d using Nat.strong_induction_on with
  | _ d ih =>
    intro a i hd hi
    rw [append_tms_shift]
    split
    · next hab =>
      cases i with
      | zero =>
        simp only [List.getD_cons_zero, mkEmission]
        have hmin : min (b - (a + 6 * 0)) 6 = min (b - a) 6 := by omega
        rw [hmin]
        rfl
      | succ i =>
        simp only [List.getD_cons_succ]
        have hk6 : min (b - a) 6 = 6 := by omega
        rw [hk6]
        have h2 := ih (b - (a + 6)) (by omega) (a + 6) i rfl (by omega)
        rw [h2]
        have harith : a + 6 + 6 * i = a + 6 * (i + 1) := by omega
        rw [harith]
    · next hab => omega

theorem tms_byte_bit_lo (tms : List Nat) (lastTdi : Bool) (j k t : Nat) (ht : t < k)
    (hk : k ≤ 7) :
    Nat.testBit (tmsCmdPattern tms j k ||| (if lastTdi then 128 else 0)) t =
      getBit tms (j + t) := by
  rw [Nat.testBit_lor, testBit_tmsCmdPattern, if_pos ht]
  have h128 : Nat.testBit (if lastTdi then 128 else 0) t = false := by
    have ht7 : t < 7 := by omega
    split
    · have h2 : (128 : Nat) = 2 ^ 7 := by norm_num
      rw [h2, Nat.testBit_two_pow_of_ne (by omega)]
    · simp
  rw [h128, Bool.or_false]

theorem tms_byte_bit7 (tms : List Nat) (lastTdi : Bool) (j k : Nat) (hk : k ≤ 6) :
    Nat.testBit (tmsCmdPattern tms j k ||| (if lastTdi then 128 else 0)) 7 = lastTdi := by
  rw [Nat.testBit_lor, testBit_tmsCmdPattern, if_neg (by omega)]
  have h128 : Nat.testBit (if lastTdi then 128 else 0) 7 = lastTdi := by
    cases lastTdi <;> decide
  rw [h128, Bool.false_or]

/-- C3: `append_tms_shift` partitions the non-shift run `[a, b)` into
chunks of at most 6 bits; the `i`-th chunk starts at `j = a + 6*i`, has
`k = min (b - j) 6` bits, and is emitted as exactly the three bytes
`{0x4B, k-1, byte}` where bit `t < k` of `byte` is `TMS[j+t]` and bit 7
of `byte` is the current `last_tdi` value; the emission demands no RX
bytes and registers no observer. -/
theorem C3_tms_run_chunks (tms : List Nat) (lastTdi : Bool) (a b i : Nat)
    (hi : i < (b - a + 5) / 6) :
    (append_tms_shift tms lastTdi a b).length = (b - a + 5) / 6 ∧
    min (b - (a + 6 * i)) 6 ≤ 6 ∧
    (append_tms_shift tms lastTdi a b).getD i ⟨[], 0, none⟩ =
      ⟨[0x4B, min (b - (a + 6 * i)) 6 - 1,
         tmsCmdPattern tms (a + 6 * i) (min (b - (a + 6 * i)) 6) |||
           (if lastTdi then 128 else 0)], 0, none⟩ ∧
    (∀ t, t < min (b - (a + 6 * i)) 6 →
      Nat.testBit (tmsCmdPattern tms (a + 6 * i) (min (b - (a + 6 * i)) 6) |||
        (if lastTdi then 128 else 0)) t = getBit tms (a + 6 * i + t)) ∧
    Nat.testBit (tmsCmdPattern tms (a + 6 * i) (min (b - (a + 6 * i)) 6) |||
      (if lastTdi then 128 else 0)) 7 = lastTdi := by
  refine ⟨append_tms_shift_length tms lastTdi (b - a) a b rfl, by omega,
    append_tms_shift_getD tms lastTdi b (b - a) a i rfl hi, ?_, ?_⟩
  · intro t ht
    exact tms_byte_bit_lo tms lastTdi (a + 6 * i) (min (b - (a + 6 * i)) 6) t ht (by omega)
  · exact tms_byte_bit7 tms lastTdi (a + 6 * i) (min (b - (a + 6 * i)) 6) (by omega)

/-- Witness for C3 at `tms = [0xFF, 0x01]`, `lastTdi = true`, run
`[0, 9)`, chunk `i = 1`: two chunks of 6 and 3 bits. -/
theorem C3_tms_run_chunks_witness :
    (1 < (9 - 0 + 5) / 6) ∧
    ((append_tms_shift [0xFF, 0x01] true 0 9).length = (9 - 0 + 5) / 6 ∧
     min (9 - (0 + 6 * 1)) 6 ≤ 6 ∧
     (append_tms_shift [0xFF, 0x01] true 0 9).getD 1 ⟨[], 0, none⟩ =
       ⟨[0x4B, min (9 - (0 + 6 * 1)) 6 - 1,
          tmsCmdPattern [0xFF, 0x01] (0 + 6 * 1) (min (9 - (0 + 6 * 1)) 6) |||
            (if true then 128 else 0)], 0, none⟩ ∧
     (∀ t, t < min (9 - (0 + 6 * 1)) 6 →
       Nat.testBit (tmsCmdPattern [0xFF, 0x01] (0 + 6 * 1) (min (9 - (0 + 6 * 1)) 6) |||
         (if true then 128 else 0)) t = getBit [0xFF, 0x01] (0 + 6 * 1 + t)) ∧
     Nat.testBit (tmsCmdPattern [0xFF, 0x01] (0 + 6 * 1) (min (9 - (0 + 6 * 1)) 6) |||
       (if true then 128 else 0)) 7 = true) :=
  ⟨by decide, C3_tms_run_chunks [0xFF, 0x01] true 0 9 1 (by decide)⟩

/-- Single-chunk exit-bit lemma: for a TDI-shift run over `[a, b)` of at
most 524288 bits (the regime where the whole-byte region fits in one
chip-buffer chunk), the exit bit `L = b-1` is clocked by a 0x6B command
whose third byte is `(TDI[L] << 7) | (last_tms << 1) | last_tms`; its
observer deposits bit 7 of the one-byte reply into TDO bit `L`; the
`last_tdi` latch is updated to `TDI[L]`; and that value seeds bit 7 of
every subsequent TMS-only command byte.  Beyond this regime the property
fails (see the C2 failing-input theorem below). -/
theorem exit_bit_single_chunk (tdi : List Nat) (a b : Nat) (lastTmsHigh ltdi : Bool)
    (hab : a < b) (hsize : b - a ≤ 524288) :
    (append_tdi_shift tdi a b lastTmsHigh 65536 ltdi).1.getLast? =
      some ⟨[0x6B, 0x00,
        (if getBit tdi (b - 1) then 128 else 0) ||| (if lastTmsHigh then 2 else 0) |||
          (if lastTmsHigh then 1 else 0)], 1, some (.bitCopier 7 (b - 1) 1)⟩ ∧
    (append_tdi_shift tdi a b lastTmsHigh 65536 ltdi).2 = getBit tdi (b - 1) ∧
    (∀ (r : Nat) (tdo : List Nat), b - 1 < 8 * tdo.length →
      getBit (applyRxObs [r] (.bitCopier 7 (b - 1) 1) tdo) (b - 1) = Nat.testBit r 7) ∧
    (∀ (tms : List Nat) (c d i : Nat), i < (d - c + 5) / 6 →
      Nat.testBit (((append_tms_shift tms (getBit tdi (b - 1)) c d).getD i
        ⟨[], 0, none⟩).tx.getD 2 0) 7 = getBit tdi (b - 1)) := by
  have hmaster := append_tdi_shift_single_chunk tdi a b lastTmsHigh ltdi hab hsize
  refine ⟨?_, ?_, ?_, ?_⟩
  · rw [hmaster]
    have hassoc : tdiLeadSeg tdi a b ++ tdiInnerSeg tdi a b ++ tdiTrailSeg tdi a b ++
        [tdiExitEm tdi b lastTmsHigh] =
        (tdiLeadSeg tdi a b ++ tdiInnerSeg tdi a b ++ tdiTrailSeg tdi a b) ++
          [tdiExitEm tdi b lastTmsHigh] := by
      simp [List.append_assoc]
    rw [hassoc, List.getLast?_concat]
    rfl
  · rw [hmaster]
  · intro r tdo hroom
    have h1 : getBit (copy_bits [r] 7 tdo (b - 1) 1 false) (b - 1 + 0) =
        getBit [r] (7 + 0) :=
      getBit_copy_bits_in [r] 1 7 tdo (b - 1) 0 (by omega) (by omega)
    simp only [Nat.add_zero] at h1
    unfold applyRxObs
    rw [h1]
    unfold getBit
    norm_num
  · intro tms c d i hi
    rw [append_tms_shift_getD tms (getBit tdi (b - 1)) d (d - c) c i rfl hi]
    exact tms_byte_bit7 tms (getBit tdi (b - 1)) (c + 6 * i)
      (min (d - (c + 6 * i)) 6) (by omega)

/-- The single-chunk exit-bit lemma at `tdi = [255]`, run `[0, 8)`,
`last_tms` high: the exit command is `{0x6B, 0x00, 0x83}`; the reply
byte 128 deposits a 1 into TDO bit 7; the latch becomes 1 and seeds bit
7 of a TMS-only command byte. -/
theorem exit_bit_single_chunk_example :
    ((0 : Nat) < 8 ∧ 8 - 0 ≤ 524288) ∧
    (append_tdi_shift [255] 0 8 true 65536 false).1.getLast? =
      some ⟨[0x6B, 0x00,
        (if getBit [255] (8 - 1) then 128 else 0) ||| (if true then 2 else 0) |||
          (if true then 1 else 0)], 1, some (.bitCopier 7 (8 - 1) 1)⟩ ∧
    (append_tdi_shift [255] 0 8 true 65536 false).2 = getBit [255] (8 - 1) ∧
    getBit (applyRxObs [128] (.bitCopier 7 (8 - 1) 1) [0]) (8 - 1) = Nat.testBit 128 7 ∧
    Nat.testBit (((append_tms_shift [0x03] (getBit [255] (8 - 1)) 0 3).getD 0
      ⟨[], 0, none⟩).tx.getD 2 0) 7 = getBit [255] (8 - 1) :=
  ⟨⟨by decide, by decide⟩,
   (exit_bit_single_chunk [255] 0 8 true false (by decide) (by decide)).1,
   (exit_bit_single_chunk [255] 0 8 true false (by decide) (by decide)).2.1,
   (exit_bit_single_chunk [255] 0 8 true false (by decide) (by decide)).2.2.1 128 [0] (by decide),
   (exit_bit_single_chunk [255] 0 8 true false (by decide) (by decide)).2.2.2 [0x03] 0 3 0 (by decide)⟩

theorem bit_readback_deposit (r : Nat) (dst : List Nat) (p n t : Nat) (ht : t < n)
    (hn : n ≤ 8) (hroom : p + n ≤ 8 * dst.length) :
    getBit (applyRxObs [r] (.bitCopier (8 - n) p n) dst) (p + t) =
      Nat.testBit r (8 - n + t) := by
  unfold applyRxObs
  rw [getBit_copy_bits_in [r] n (8 - n) dst p t ht hroom]
  unfold getBit
  have h1 : (8 - n + t) / 8 = 0 := by omega
  have h2 : (8 - n + t) % 8 = 8 - n + t := by omega
  rw [h1, h2]
  rfl

theorem tdiBrLead_mem_shape (tdi : List Nat) (a b cur : Nat) :
    ∀ e ∈ (tdiBrLead tdi a b cur).1, bitReadbackOk e := by
  unfold tdiBrLead
  split
  · next hc =>
    intro e he
    simp only [List.mem_singleton] at he
    subst he
    refine ⟨rfl, ?_⟩
    intro f p n hobs
    simp only [mkEmission, Nat.lt_irrefl, Nat.zero_lt_one, if_pos, Option.some.injEq,
      RxObs.bitCopier.injEq] at hobs
    obtain ⟨hf, hp, hn⟩ := hobs
    have h7 := (tdiNumLeading_le a b).2
    subst hf
    subst hn
    exact ⟨hc.2, by omega, rfl, rfl, rfl⟩
  · intro e he
    exact absurd he (List.not_mem_nil e)

theorem tdiBrTrail_mem_shape (tdi : List Nat) (a b cur : Nat) :
    ∀ e ∈ (tdiBrTrail tdi a b cur).1, bitReadbackOk e := by
  have hnt7 : tdiNumTrailing a b ≤ 7 := by
    unfold tdiNumTrailing
    split <;> omega
  unfold tdiBrTrail
  split
  · next hc =>
    intro e he
    simp only [List.mem_singleton] at he
    subst he
    refine ⟨rfl, ?_⟩
    intro f p n hobs
    simp only [mkEmission, Nat.zero_lt_one, if_pos, Option.some.injEq,
      RxObs.bitCopier.injEq] at hobs
    obtain ⟨hf, hp, hn⟩ := hobs
    subst hf
    subst hn
    exact ⟨hc.1, by omega, rfl, rfl, rfl⟩
  · intro e he
    exact absurd he (List.not_mem_nil e)

theorem tdiBrInner_mem_shape (tdi : List Nat) (a b chip cur : Nat) :
    ∀ e ∈ (tdiBrInner tdi a b chip cur).1, isCmd3B e = true → bitReadbackOk e := by
  unfold tdiBrInner
  split
  · intro e he h3
    simp only [List.mem_cons, List.mem_singleton, List.not_mem_nil, or_false] at he
    rcases he with he | he
    · subst he
      simp [isCmd3B, mkEmission, byteShiftHeader] at h3
    · subst he
      simp only [isCmd3B, mkEmission, Bool.and_eq_true, beq_iff_eq] at h3
      obtain ⟨⟨hrx, hlen⟩, _⟩ := h3
      rw [List.length_take] at hlen
      omega
  · intro e he
    exact absurd he (List.not_mem_nil e)

theorem tdiBrExit_mem_shape (tdi : List Nat) (b : Nat) (lastTms : Bool) (cur : Nat)
    (ltdi : Bool) :
    ∀ e ∈ (tdiBrExit tdi b lastTms cur ltdi).1, isCmd3B e = true → bitReadbackOk e := by
  unfold tdiBrExit
  split
  · intro e he h3
    simp only [List.mem_singleton] at he
    subst he
    simp [isCmd3B, mkEmission] at h3
  · intro e he
    exact absurd he (List.not_mem_nil e)

theorem tdiLoop_mem_shape (tdi : List Nat) (a b : Nat) (lastTms : Bool) (chip : Nat) :
    ∀ d cur ltdi, b - cur = d →
      ∀ e ∈ (tdiLoop tdi a b lastTms chip cur ltdi).1, isCmd3B e = true →
        bitReadbackOk e := by
  intro d
  induction d using Nat.strong_induction_on with
  | _ d ih =>
    intro cur ltdi hd e he h3
    rw [tdiLoop] at he
    by_cases hcur : cur < b
    · rw [dif_pos hcur] at he
      by_cases hadv : cur < (tdiBrExit tdi b lastTms
          (tdiBrTrail tdi a b (tdiBrInner tdi a b chip (tdiBrLead tdi a b cur).2).2).2
          ltdi).2.1
      · rw [dif_pos hadv] at he
        simp only [List.mem_append] at he
        rcases he with ((((he | he) | he) | he) | he)
        · exact tdiBrLead_mem_shape tdi a b cur e he
        · exact tdiBrInner_mem_shape tdi a b chip _ e he h3
        · exact tdiBrTrail_mem_shape tdi a b _ e he
        · exact tdiBrExit_mem_shape tdi b lastTms _ ltdi e he h3
        · exact ih (b - (tdiBrExit tdi b lastTms
            (tdiBrTrail tdi a b (tdiBrInner tdi a b chip (tdiBrLead tdi a b cur).2).2).2
            ltdi).2.1) (by omega) _ _ rfl e he h3
      · rw [dif_neg hadv] at he
        simp only [List.mem_append] at he
        rcases he with (((he | he) | he) | he)
        · exact tdiBrLead_mem_shape tdi a b cur e he
        · exact tdiBrInner_mem_shape tdi a b chip _ e he h3
        · exact tdiBrTrail_mem_shape tdi a b _ e he
        · exact tdiBrExit_mem_shape tdi b lastTms _ ltdi e he h3
    · rw [dif_neg hcur] at he
      exact absurd he (List.not_mem_nil e)

/-- C4: every bit-granularity (0x3B) readback emitted by a TDI-shift run
reads `k ≤ 7` bits right-justified: its observer is a bit copier
`bitCopier (8-k) p k` demanding one reply byte, and `copy_bits` deposits
bit `(8-k)+t` of the reply byte into TDO bit `p+t` for every `t < k`. -/
theorem C4_right_justified (tdi : List Nat) (a b : Nat) (lastTms : Bool) (chip : Nat)
    (ltdi : Bool) :
    (∀ e ∈ (append_tdi_shift tdi a b lastTms chip ltdi).1, isCmd3B e = true →
      bitReadbackOk e) ∧
    (∀ (r : Nat) (dst : List Nat) (p n t : Nat), t < n → n ≤ 8 →
      p + n ≤ 8 * dst.length →
      getBit (applyRxObs [r] (.bitCopier (8 - n) p n) dst) (p + t) =
        Nat.testBit r (8 - n + t)) := by
  constructor
  · intro e he h3
    exact tdiLoop_mem_shape tdi a b lastTms chip (b - a) a ltdi rfl e he h3
  · intro r dst p n t ht hn hroom
    exact bit_readback_deposit r dst p n t ht hn hroom

/-- Witness for C4: the leading readback of the run `[1, 10)` over
`tdi = [0xAB, 0xCD]` is `{0x3B, 6, 0x55}` with observer
`bitCopier 1 1 7`, and reply byte 0xA5 deposits its bit 2 into TDO
bit 2 under the `n = 8` right-justification rule. -/
theorem C4_right_justified_witness :
    bitReadbackOk ⟨[0x3B, 6, 0x55], 1, some (.bitCopier 1 1 7)⟩ ∧
    getBit (applyRxObs [0xA5] (.bitCopier (8 - 8) 0 8) [0]) (0 + 2) =
      Nat.testBit 0xA5 (8 - 8 + 2) :=
  ⟨(C4_right_justified [0xAB, 0xCD] 1 10 false 65536 true).1
      ⟨[0x3B, 6, 0x55], 1, some (.bitCopier 1 1 7)⟩
      (by rw [append_tdi_shift_single_chunk [0xAB, 0xCD] 1 10 false true (by decide)
            (by decide)]
          decide)
      (by decide),
   (C4_right_justified [0xAB, 0xCD] 1 10 false 65536 true).2 0xA5 [0] 0 8 2
     (by decide) (by decide) (by decide)⟩

theorem append_tms_shift_mem_rx (tms : List Nat) (lastTdi : Bool) :
    ∀ d a b, b - a = d → ∀ e ∈ append_tms_shift tms lastTdi a b,
      emObsBytes e = e.rx := by
  intro d
  induction d using Nat.strong_induction_on with
  | _ d ih =>
    intro a b hd e he
    rw [append_tms_shift] at he
    split at he
    · next hab =>
      simp only [List.mem_cons] at he
      rcases he with he | he
      · subst he
        rfl
      · exact ih (b - (a + min (b - a) 6)) (by omega) (a + min (b - a) 6) b rfl e he
    · exact absurd he (List.not_mem_nil e)

theorem append_tdi_shift_mem_rx (tdi : List Nat) (a b : Nat) (lastTms ltdi : Bool)
    (hab : a < b) (hsize : b - a ≤ 524288) :
    ∀ e ∈ (append_tdi_shift tdi a b lastTms 65536 ltdi).1, emObsBytes e = e.rx := by
  rw [append_tdi_shift_single_chunk tdi a b lastTms ltdi hab hsize]
  intro e he
  have hnl := (tdiNumLeading_le a b).2
  have hnt : tdiNumTrailing a b ≤ 7 := by
    unfold tdiNumTrailing
    split <;> omega
  simp only [List.mem_append, List.mem_singleton] at he
  rcases he with (((he | he) | he) | he)
  · unfold tdiLeadSeg at he
    split at he
    · simp only [List.mem_singleton] at he
      subst he
      simp only [emObsBytes, rxObsLen]
      omega
    · exact absurd he (List.not_mem_nil e)
  · unfold tdiInnerSeg at he
    split at he
    · simp only [List.mem_cons, List.mem_singleton, List.not_mem_nil, or_false] at he
      rcases he with he | he
      · subst he
        rfl
      · subst he
        rfl
    · exact absurd he (List.not_mem_nil e)
  · unfold tdiTrailSeg at he
    split at he
    · simp only [List.mem_singleton] at he
      subst he
      simp only [emObsBytes, rxObsLen]
      omega
    · exact absurd he (List.not_mem_nil e)
  · subst he
    rfl

theorem scanLoop_mem_rx (tms tdi : List Nat) (bits : Nat) (hbits : bits ≤ 524288) :
    ∀ d bitIdx fp st ltdi, bits - bitIdx = d → fp ≤ bitIdx →
      ∀ e ∈ (scanLoop tms tdi bits 65536 bitIdx fp st ltdi).1,
        emObsBytes e = e.rx := by
  intro d
  induction d using Nat.strong_induction_on with
  | _ d ih =>
    intro bitIdx fp st ltdi hd hfp e he
    rw [scanLoop] at he
    by_cases hb : bitIdx < bits
    · rw [dif_pos hb] at he
      by_cases hev : (bitIdx = bits - 1 ∨
          (!isShiftState st && isShiftState (next_state st (getBit tms bitIdx))) = true ∨
          (isShiftState st && !isShiftState (next_state st (getBit tms bitIdx))) = true)
      · rw [if_pos hev] at he
        simp only [List.mem_append] at he
        rcases he with he | he
        · by_cases hsh : isShiftState st = true
          · rw [if_pos hsh] at he
            exact append_tdi_shift_mem_rx tdi fp (bitIdx + 1) _ ltdi (by omega)
              (by omega) e he
          · rw [if_neg hsh] at he
            exact append_tms_shift_mem_rx tms ltdi ((bitIdx + 1) - fp) fp (bitIdx + 1)
              rfl e he
        · exact ih (bits - (bitIdx + 1)) (by omega) (bitIdx + 1) (bitIdx + 1) _ _ rfl
            (by omega) e he
      · rw [if_neg hev] at he
        exact ih (bits - (bitIdx + 1)) (by omega) (bitIdx + 1) fp _ ltdi rfl
          (by omega) e he
    · rw [dif_neg hb] at he
      exact absurd he (List.not_mem_nil e)

/-- Single-chunk RX-accounting lemma: for a scan of at most 524288 bits
(every shift-run's whole-byte region then fits in one chip-buffer
chunk), every prefix of the emission stream has observer consumption
equal to the accumulated RX demand `rx_len`.  Beyond this regime the
invariant fails (see the C6 failing-input theorem below). -/
theorem rx_accounting_single_chunk (tms tdi : List Nat) (bits : Nat) (st : JState) (ltdi : Bool)
    (hbits : bits ≤ 524288) (k : Nat) :
    emsObsBytes (((mpsse_adapter_scan tms tdi bits st ltdi).1).take k) =
      emsRxBytes (((mpsse_adapter_scan tms tdi bits st ltdi).1).take k) := by
  unfold emsObsBytes emsRxBytes
  have hmap : (((mpsse_adapter_scan tms tdi bits st ltdi).1).take k).map emObsBytes =
      (((mpsse_adapter_scan tms tdi bits st ltdi).1).take k).map (fun e => e.rx) := by
    apply List.map_congr_left
    intro e he
    have hmem : e ∈ (mpsse_adapter_scan tms tdi bits st ltdi).1 :=
      List.take_subset k _ he
    exact scanLoop_mem_rx tms tdi bits hbits (bits - 0) 0 0 st ltdi rfl (le_refl 0)
      e hmem
  rw [hmap]

/-- The single-chunk RX-accounting lemma at an 8-bit Shift-DR scan,
prefix of length 1. -/
theorem rx_accounting_single_chunk_example :
    ((8 : Nat) ≤ 524288) ∧
    emsObsBytes (((mpsse_adapter_scan [0] [0x55] 8 .shiftDR false).1).take 1) =
      emsRxBytes (((mpsse_adapter_scan [0] [0x55] 8 .shiftDR false).1).take 1) :=
  ⟨by decide, rx_accounting_single_chunk [0] [0x55] 8 .shiftDR false (by decide) 1⟩

theorem tdiLoop_step (tdi : List Nat) (a b : Nat) (lt : Bool) (chip cur : Nat)
    (ltdi : Bool) (hcur : cur < b)
    (l1 l2 l3 l4 : List Emission) (c1 c2 c3 c4 : Nat) (lt4 : Bool)
    (h1 : tdiBrLead tdi a b cur = (l1, c1))
    (h2 : tdiBrInner tdi a b chip c1 = (l2, c2))
    (h3 : tdiBrTrail tdi a b c2 = (l3, c3))
    (h4 : tdiBrExit tdi b lt c3 ltdi = (l4, c4, lt4))
    (hadv : cur < c4) :
    tdiLoop tdi a b lt chip cur ltdi =
      (l1 ++ l2 ++ l3 ++ l4 ++ (tdiLoop tdi a b lt chip c4 lt4).1,
       (tdiLoop tdi a b lt chip c4 lt4).2) := by
  rw [tdiLoop, dif_pos hcur]
  simp only [h1, h2, h3, h4]
  rw [dif_pos hadv]

theorem tdiLoop_done (tdi : List Nat) (a b : Nat) (lt : Bool) (chip cur : Nat)
    (ltdi : Bool) (hcur : ¬cur < b) :
    tdiLoop tdi a b lt chip cur ltdi = ([], ltdi) := by
  rw [tdiLoop, dif_neg hcur]

theorem scanLoop_replicate_zero (tdi : List Nat) (m bits : Nat) :
    ∀ d bitIdx fp ltdi, bits - bitIdx = d → bitIdx < bits →
      scanLoop (List.replicate m 0) tdi bits 65536 bitIdx fp .shiftDR ltdi =
        ((append_tdi_shift tdi fp bits false 65536 ltdi).1, .shiftDR,
         (append_tdi_shift tdi fp bits false 65536 ltdi).2) := by
  intro d
  induction d using Nat.strong_induction_on with
  | _ d ih =>
    intro bitIdx fp ltdi hd hb
    rw [scanLoop, dif_pos hb]
    have hns : next_state JState.shiftDR false = JState.shiftDR := rfl
    have hsh : isShiftState JState.shiftDR = true := rfl
    simp only [getBit_replicate_zero, hns, hsh, Bool.not_true, Bool.true_and,
      Bool.false_and, Bool.and_false]
    by_cases hend : bitIdx = bits - 1
    · rw [if_pos (Or.inl hend)]
      have hb1 : bitIdx + 1 = bits := by omega
      rw [hb1]
      rw [scanLoop, dif_neg (lt_irrefl bits)]
      simp
    · rw [if_neg (by
        intro hc
        rcases hc with hc | hc | hc
        · exact hend hc
        · simp at hc
        · simp at hc)]
      exact ih (bits - (bitIdx + 1)) (by omega) (bitIdx + 1) fp ltdi rfl (by omega)

theorem mpsse_scan_replicate_zero (tdi : List Nat) (m bits : Nat) (ltdi : Bool)
    (hbits : 0 < bits) :
    mpsse_adapter_scan (List.replicate m 0) tdi bits .shiftDR ltdi =
      ((append_tdi_shift tdi 0 bits false 65536 ltdi).1, .shiftDR,
       (append_tdi_shift tdi 0 bits false 65536 ltdi).2) :=
  scanLoop_replicate_zero tdi m bits (bits - 0) 0 0 ltdi rfl hbits

/-- C5 (code-bug evidence): an all-zero-TMS shift of N = 524298 bits
from Shift-DR is processed as a single shift-run with 65537 whole-byte
payload bytes, for which the claim (and §8.3 of the spec) demands
`ceil(65537/65536) = 2` 0x39 byte-shift commands, at most two 0x3B
bit-shift commands and one 0x6B exit command; the code instead emits
eight 0x39 headers (seven of them with a length field of 65536 bytes but
no payload at all) and nine 0x3B commands, because once the first
65536-byte chunk of a multi-chunk run has been sent, the trailing-bits
branch fires on every loop iteration and leaves `cur_idx` misaligned, so
`(inner_end_idx - cur_idx)/8` collapses to zero. -/
theorem C5_command_count_failing_input :
    (mpsse_adapter_scan (List.replicate 65538 0) (List.replicate 65538 0) 524298
        .shiftDR false).1.countP isCmd39Hdr = 8 ∧
    (mpsse_adapter_scan (List.replicate 65538 0) (List.replicate 65538 0) 524298
        .shiftDR false).1.countP isCmd3B = 9 ∧
    (mpsse_adapter_scan (List.replicate 65538 0) (List.replicate 65538 0) 524298
        .shiftDR false).1.countP isCmd6B = 1 ∧
    tdiTotalInner 0 524298 = 65537 ∧
    (tdiTotalInner 0 524298 + 65535) / 65536 = 2 := by
  rw [mpsse_scan_replicate_zero (List.replicate 65538 0) 65538 524298 false
    (by norm_num)]
  have i1 := tdiLoop_step (List.replicate 65538 0) 0 524298 false 65536 0 false
    (by norm_num)
    [] [⟨[0x39, 255, 255], 0, none⟩,
        ⟨List.take 65536 (List.replicate 65538 0), 65536, some (.byteCopier 0 65536)⟩]
    [⟨[0x3B, 0, (List.replicate 65538 0).getD 65537 0], 1, some (.bitCopier 7 524296 1)⟩]
    []
    0 524288 524289 524289 false rfl rfl rfl rfl (by norm_num)
  have h4exit : tdiBrExit (List.replicate 65538 0) 524298 false 524297 false =
      ([⟨[0x6B, 0x00, 0], 1, some (.bitCopier 7 524297 1)⟩], 524298, false) := by
    unfold tdiBrExit
    rw [getBit_replicate_zero, if_pos (by norm_num)]
    rfl
  have i9 := tdiLoop_step (List.replicate 65538 0) 0 524298 false 65536 524296 false
    (by norm_num)
    [] []
    [⟨[0x3B, 0, (List.replicate 65538 0).getD 65537 0], 1, some (.bitCopier 7 524296 1)⟩]
    [⟨[0x6B, 0x00, 0], 1, some (.bitCopier 7 524297 1)⟩]
    524296 524296 524297 524298 false
    rfl rfl rfl h4exit (by norm_num)
  have hdone := tdiLoop_done (List.replicate 65538 0) 0 524298 false 65536 524298
    false (by norm_num)
  refine ⟨?_, ?_, ?_, by decide, by decide⟩ <;>
  · show (tdiLoop (List.replicate 65538 0) 0 524298 false 65536 0 false).1.countP _ = _
    rw [i1]
    rw [tdiLoop_step (List.replicate 65538 0) 0 524298 false 65536 524289 false
      (by norm_num) [] [⟨[0x39, 255, 255], 0, none⟩, ⟨[], 0, none⟩]
      [⟨[0x3B, 0, (List.replicate 65538 0).getD 65537 0], 1, some (.bitCopier 7 524296 1)⟩]
      [] 524289 524289 524290 524290 false rfl rfl rfl rfl (by norm_num)]
    rw [tdiLoop_step (List.replicate 65538 0) 0 524298 false 65536 524290 false
      (by norm_num) [] [⟨[0x39, 255, 255], 0, none⟩, ⟨[], 0, none⟩]
      [⟨[0x3B, 0, (List.replicate 65538 0).getD 65537 0], 1, some (.bitCopier 7 524296 1)⟩]
      [] 524290 524290 524291 524291 false rfl rfl rfl rfl (by norm_num)]
    rw [tdiLoop_step (List.replicate 65538 0) 0 524298 false 65536 524291 false
      (by norm_num) [] [⟨[0x39, 255, 255], 0, none⟩, ⟨[], 0, none⟩]
      [⟨[0x3B, 0, (List.replicate 65538 0).getD 65537 0], 1, some (.bitCopier 7 524296 1)⟩]
      [] 524291 524291 524292 524292 false rfl rfl rfl rfl (by norm_num)]
    rw [tdiLoop_step (List.replicate 65538 0) 0 524298 false 65536 524292 false
      (by norm_num) [] [⟨[0x39, 255, 255], 0, none⟩, ⟨[], 0, none⟩]
      [⟨[0x3B, 0, (List.replicate 65538 0).getD 65537 0], 1, some (.bitCopier 7 524296 1)⟩]
      [] 524292 524292 524293 524293 false rfl rfl rfl rfl (by norm_num)]
    rw [tdiLoop_step (List.replicate 65538 0) 0 524298 false 65536 524293 false
      (by norm_num) [] [⟨[0x39, 255, 255], 0, none⟩, ⟨[], 0, none⟩]
      [⟨[0x3B, 0, (List.replicate 65538 0).getD 65537 0], 1, some (.bitCopier 7 524296 1)⟩]
      [] 524293 524293 524294 524294 false rfl rfl rfl rfl (by norm_num)]
    rw [tdiLoop_step (List.replicate 65538 0) 0 524298 false 65536 524294 false
      (by norm_num) [] [⟨[0x39, 255, 255], 0, none⟩, ⟨[], 0, none⟩]
      [⟨[0x3B, 0, (List.replicate 65538 0).getD 65537 0], 1, some (.bitCopier 7 524296 1)⟩]
      [] 524294 524294 524295 524295 false rfl rfl rfl rfl (by norm_num)]
    rw [tdiLoop_step (List.replicate 65538 0) 0 524298 false 65536 524295 false
      (by norm_num) [] [⟨[0x39, 255, 255], 0, none⟩, ⟨[], 0, none⟩]
      [⟨[0x3B, 0, (List.replicate 65538 0).getD 65537 0], 1, some (.bitCopier 7 524296 1)⟩]
      [] 524295 524295 524296 524296 false rfl rfl rfl rfl (by norm_num)]
    rw [i9, hdone]
    decide

/-- C2 (code-bug evidence): for the all-zero-TMS run `[0, 524302)` — a
single shift-run with 65537 whole-byte payload bytes and 5 trailing
bits — the claim demands a 0x6B exit command for the exit bit
`L = 524301`, a TDO[L] deposit and a `last_tdi` update; the code emits
no 0x6B command at all.  The trailing-bits branch fires while the
whole-byte region is unfinished (its guard checks only
`num_trailing_bits > 0 && cur_idx < last_bit_idx`), and its final
misfire advances `cur_idx` from 524298 past the exit bit to 524303, so
the loop exits without the exit branch ever running: the stream is two
0x39 headers (the second with no payload), three 0x3B commands and zero
0x6B commands, the exit bit is never clocked with TMS high, TDO[L] is
never deposited, and the latch is never updated. -/
theorem C2_exit_bit_failing_input :
    (mpsse_adapter_scan (List.replicate 65538 0) (List.replicate 65538 0) 524302
        .shiftDR false).1.countP isCmd6B = 0 ∧
    (mpsse_adapter_scan (List.replicate 65538 0) (List.replicate 65538 0) 524302
        .shiftDR false).1.countP isCmd39Hdr = 2 ∧
    (mpsse_adapter_scan (List.replicate 65538 0) (List.replicate 65538 0) 524302
        .shiftDR false).1.countP isCmd3B = 3 := by
  rw [mpsse_scan_replicate_zero (List.replicate 65538 0) 65538 524302 false
    (by norm_num)]
  have i1 := tdiLoop_step (List.replicate 65538 0) 0 524302 false 65536 0 false
    (by norm_num)
    [] [⟨[0x39, 255, 255], 0, none⟩,
        ⟨List.take 65536 (List.replicate 65538 0), 65536, some (.byteCopier 0 65536)⟩]
    [⟨[0x3B, 4, (List.replicate 65538 0).getD 65537 0], 1,
        some (.bitCopier 3 524296 5)⟩]
    []
    0 524288 524293 524293 false rfl rfl rfl rfl (by norm_num)
  have i2 := tdiLoop_step (List.replicate 65538 0) 0 524302 false 65536 524293 false
    (by norm_num)
    [] [⟨[0x39, 255, 255], 0, none⟩, ⟨[], 0, none⟩]
    [⟨[0x3B, 4, (List.replicate 65538 0).getD 65537 0], 1,
        some (.bitCopier 3 524296 5)⟩]
    []
    524293 524293 524298 524298 false rfl rfl rfl rfl (by norm_num)
  have i3 := tdiLoop_step (List.replicate 65538 0) 0 524302 false 65536 524298 false
    (by norm_num)
    [] []
    [⟨[0x3B, 4, (List.replicate 65538 0).getD 65537 0], 1,
        some (.bitCopier 3 524296 5)⟩]
    []
    524298 524298 524303 524303 false rfl rfl rfl rfl (by norm_num)
  have hdone := tdiLoop_done (List.replicate 65538 0) 0 524302 false 65536 524303
    false (by norm_num)
  refine ⟨?_, ?_, ?_⟩ <;>
  · show (tdiLoop (List.replicate 65538 0) 0 524302 false 65536 0 false).1.countP _ = _
    rw [i1, i2, i3, hdone]
    decide

/-- C6 (code-bug evidence): after the all-zero-TMS scan of N = 524297
bits — a single shift-run whose 65537 whole-byte payload bytes split
into chip-buffer chunks of 65536 and 1 — the observers' declared source
lengths sum to 131074 while the accumulated RX demand `rx_len` is
65538: the first chunk registers a byte copier of 65536 bytes, and the
last chunk (RX demand 1) registers the bulk byte copier with
`source_len = total_inner_bytes = 65537`, double-counting the 65536
bytes the first chunk's observer already consumes, so observer
consumption does not equal `rx_len` as the claim requires after any
scan. -/
theorem C6_rx_accounting_failing_input :
    emsObsBytes (mpsse_adapter_scan (List.replicate 65538 0)
        (List.replicate 65538 0) 524297 .shiftDR false).1 = 131074 ∧
    emsRxBytes (mpsse_adapter_scan (List.replicate 65538 0)
        (List.replicate 65538 0) 524297 .shiftDR false).1 = 65538 := by
  rw [mpsse_scan_replicate_zero (List.replicate 65538 0) 65538 524297 false
    (by norm_num)]
  have h4exit : tdiBrExit (List.replicate 65538 0) 524297 false 524296 false =
      ([⟨[0x6B, 0x00, 0], 1, some (.bitCopier 7 524296 1)⟩], 524297, false) := by
    unfold tdiBrExit
    rw [getBit_replicate_zero, if_pos (by norm_num)]
    rfl
  have i1 := tdiLoop_step (List.replicate 65538 0) 0 524297 false 65536 0 false
    (by norm_num)
    [] [⟨[0x39, 255, 255], 0, none⟩,
        ⟨List.take 65536 (List.replicate 65538 0), 65536, some (.byteCopier 0 65536)⟩]
    [] []
    0 524288 524288 524288 false rfl rfl rfl rfl (by norm_num)
  have i2 := tdiLoop_step (List.replicate 65538 0) 0 524297 false 65536 524288 false
    (by norm_num)
    [] [⟨[0x39, 0, 0], 0, none⟩,
        ⟨List.take 1 (List.drop 65536 (List.replicate 65538 0)), 1,
          some (.bulkCopier 0 65537)⟩]
    [] [⟨[0x6B, 0x00, 0], 1, some (.bitCopier 7 524296 1)⟩]
    524288 524296 524296 524297 false rfl rfl rfl h4exit (by norm_num)
  have hdone := tdiLoop_done (List.replicate 65538 0) 0 524297 false 65536 524297
    false (by norm_num)
  constructor
  · show emsObsBytes
        (tdiLoop (List.replicate 65538 0) 0 524297 false 65536 0 false).1 = 131074
    rw [i1, i2, hdone]
    decide
  · show emsRxBytes
        (tdiLoop (List.replicate 65538 0) 0 524297 false 65536 0 false).1 = 65538
    rw [i1, i2, hdone]
    decide

theorem drop_replicate_z (a : Nat) : ∀ (k n : Nat),
    (List.replicate n a).drop k = List.replicate (n - k) a := by
  intro k
  induction k with
  | zero => simp
  | succ k ih =>
    intro n
    cases n with
    | zero => simp
    | succ n =>
      rw [List.replicate_succ, List.drop_succ_cons, ih, Nat.succ_sub_succ]

theorem writeBytesAt_aligned (P Z src : List Nat) :
    writeBytesAt (P ++ Z) P.length src = P ++ src ++ Z.drop src.length := by
  unfold writeBytesAt
  rw [List.take_left' rfl, ← List.drop_drop, List.drop_left]

theorem chunkLoop_step (bits cB processed : Nat) (h1 : processed < bits)
    (h2 : 0 < cB) :
    chunkLoop bits cB processed =
      (processed / 8, min cB (bits - processed)) ::
        chunkLoop bits cB (processed + min cB (bits - processed)) := by
  rw [chunkLoop, dif_pos ⟨h1, h2⟩]

theorem chunkLoop_done (bits cB processed : Nat) (h : bits ≤ processed) :
    chunkLoop bits cB processed = [] := by
  rw [chunkLoop, dif_neg (fun hc => absurd hc.1 (by omega))]

theorem ftdiChunkedCalls_1024 (bits : Nat) :
    ftdiChunkedCalls bits 1024 =
      if (bits + 7) / 8 ≤ 1024 then [(0, bits)] else chunkLoop bits 8192 0 := rfl

theorem ftdiChunkedTdo_1024 (f : Nat → Nat → List Nat) (bits : Nat) :
    ftdiChunkedTdo f bits 1024 =
      if (bits + 7) / 8 ≤ 1024 then f 0 bits
      else (chunkLoop bits 8192 0).foldl
        (fun acc oc => writeBytesAt acc oc.1 ((f oc.1 oc.2).take ((oc.2 + 7) / 8)))
        (List.replicate ((bits + 7) / 8) 0) := rfl

theorem chunkLoop_8192 (bits : Nat) :
    ∀ n i, (bits - 8192 * i + 8191) / 8192 = n → 8192 * i < bits →
      chunkLoop bits 8192 (8192 * i) =
        (List.range n).map
          (fun j => (1024 * (i + j), min 8192 (bits - 8192 * (i + j)))) := by
  intro n
  induction n with
  | zero => intro i hn hi; exact absurd hn (by omega)
  | succ n ih =>
    intro i hn hi
    rw [chunkLoop_step bits 8192 (8192 * i) hi (by norm_num)]
    have hoff : 8192 * i / 8 = 1024 * i := by omega
    rw [List.range_succ_eq_map, List.map_cons, List.map_map]
    by_cases hbig : 8192 < bits - 8192 * i
    · have hnext : 8192 * i + min 8192 (bits - 8192 * i) = 8192 * (i + 1) := by
        omega
      rw [hnext, ih (i + 1) (by omega) (by omega)]
      have hmaps : ∀ j ∈ List.range n,
          ((fun j => (1024 * (i + j), min 8192 (bits - 8192 * (i + j)))) ∘
            Nat.succ) j =
            (fun j => (1024 * (i + 1 + j), min 8192 (bits - 8192 * (i + 1 + j))))
              j := by
        intro j _
        simp only [Function.comp]
        have h1 : i + Nat.succ j = i + 1 + j := by omega
        rw [h1]
      rw [List.map_congr_left hmaps, hoff]
      simp only [Nat.add_zero]
    · have hnext : 8192 * i + min 8192 (bits - 8192 * i) = bits := by omega
      rw [hnext, chunkLoop_done bits 8192 bits (le_refl bits), hoff]
      have hn0 : n = 0 := by omega
      subst hn0
      simp

theorem chunkLoop_fold_join (f : Nat → Nat → List Nat)
    (hf : ∀ off bl, (bl + 7) / 8 ≤ (f off bl).length) (bits : Nat) :
    ∀ d processed P, bits - processed = d → processed < bits →
      processed % 8192 = 0 → P.length = processed / 8 →
      (chunkLoop bits 8192 processed).foldl
          (fun acc oc => writeBytesAt acc oc.1 ((f oc.1 oc.2).take ((oc.2 + 7) / 8)))
          (P ++ List.replicate ((bits + 7) / 8 - processed / 8) 0) =
        P ++ ((chunkLoop bits 8192 processed).map
          (fun oc => (f oc.1 oc.2).take ((oc.2 + 7) / 8))).join := by
  intro d
  induction d using Nat.strong_induction_on with
  | _ d ih =>
    intro processed P hd hlt hmod hlen
    rw [chunkLoop_step bits 8192 processed hlt (by norm_num)]
    simp only [List.foldl_cons, List.map_cons, List.join]
    set k := min 8192 (bits - processed) with hk
    set src := (f (processed / 8) k).take ((k + 7) / 8) with hsrc
    have hsrclen : src.length = (k + 7) / 8 := by
      rw [hsrc, List.length_take]
      have := hf (processed / 8) k
      omega
    have hwrite : writeBytesAt
        (P ++ List.replicate ((bits + 7) / 8 - processed / 8) 0)
        (processed / 8) src =
        P ++ src ++
          List.replicate ((bits + 7) / 8 - processed / 8 - src.length) 0 := by
      rw [← hlen, writeBytesAt_aligned, drop_replicate_z]
    rw [hwrite]
    by_cases hlast : processed + k < bits
    · have hcount : (bits + 7) / 8 - processed / 8 - src.length =
          (bits + 7) / 8 - (processed + k) / 8 := by
        rw [hsrclen]
        omega
      have hP' : (P ++ src).length = (processed + k) / 8 := by
        rw [List.length_append, hsrclen, hlen]
        omega
      rw [hcount]
      rw [ih (bits - (processed + k)) (by omega) (processed + k) (P ++ src)
        rfl hlast (by omega) hP']
      simp [List.append_assoc]
    · have hend : processed + k = bits := by omega
      have hcount0 : (bits + 7) / 8 - processed / 8 - src.length = 0 := by
        rw [hsrclen]
        omega
      rw [hend, chunkLoop_done bits 8192 bits (le_refl bits), hcount0]
      simp [List.append_assoc]

/-- C7: the shift handler performs every scan through
`ftdi_adapter_scan_chunked` with `chunk_bytes = 1024`: a vector of at
most 1024 bytes is handed unchanged to a single `ftdi_adapter_scan`, a
longer one is split at 1024-byte boundaries into byte-aligned sub-scans
`(1024*i, min 8192 (bits - 8192*i))` that restart the run segmentation,
and the output buffer is the concatenation of the per-chunk TDO bytes
placed at the chunks' byte offsets. -/
theorem C7_chunked_scan (f : Nat → Nat → List Nat)
    (hf : ∀ off bl, (bl + 7) / 8 ≤ (f off bl).length) :
    (∀ bits, (bits + 7) / 8 ≤ 1024 →
      ftdiChunkedCalls bits 1024 = [(0, bits)] ∧
      ftdiChunkedTdo f bits 1024 = f 0 bits) ∧
    (∀ bits, 1024 < (bits + 7) / 8 →
      ftdiChunkedCalls bits 1024 =
        (List.range ((bits + 8191) / 8192)).map
          (fun i => (1024 * i, min 8192 (bits - 8192 * i))) ∧
      ftdiChunkedTdo f bits 1024 =
        ((ftdiChunkedCalls bits 1024).map
          (fun oc => (f oc.1 oc.2).take ((oc.2 + 7) / 8))).join) ∧
    (∀ ctx len tms tdi ctx2 tdo scans stop,
      xvc_shift ctx f len tms tdi = .reply ctx2 tdo scans stop → scans ≠ [] →
      scans = ftdiChunkedCalls len.toNat 1024 ∧
      tdo = ftdiChunkedTdo f len.toNat 1024) := by
  refine ⟨?_, ?_, ?_⟩
  · intro bits hsmall
    constructor
    · rw [ftdiChunkedCalls_1024, if_pos hsmall]
    · rw [ftdiChunkedTdo_1024, if_pos hsmall]
  · intro bits hbig
    have h0 := chunkLoop_8192 bits ((bits + 8191) / 8192) 0 (by omega) (by omega)
    rw [Nat.mul_zero] at h0
    have h0' : chunkLoop bits 8192 0 =
        (List.range ((bits + 8191) / 8192)).map
          (fun i => (1024 * i, min 8192 (bits - 8192 * i))) := by
      rw [h0]
      apply List.map_congr_left
      intro j _
      simp
    have hcalls : ftdiChunkedCalls bits 1024 =
        (List.range ((bits + 8191) / 8192)).map
          (fun i => (1024 * i, min 8192 (bits - 8192 * i))) := by
      rw [ftdiChunkedCalls_1024, if_neg (by omega)]
      exact h0'
    refine ⟨hcalls, ?_⟩
    have hfold := chunkLoop_fold_join f hf bits (bits - 0) 0 [] rfl (by omega)
      (by omega) rfl
    simp only [Nat.zero_div, Nat.sub_zero, List.nil_append] at hfold
    rw [ftdiChunkedTdo_1024, if_neg (by omega), hfold, hcalls, ← h0']
  · intro ctx len tms tdi ctx2 tdo scans stop heq hne
    simp only [xvc_shift] at heq
    split at heq
    · exact absurd heq (by simp)
    · split at heq
      · rw [XvcOutcome.reply.injEq] at heq
        exact absurd heq.2.2.1.symm hne
      · split at heq
        · exact absurd heq (by simp)
        · rw [XvcOutcome.reply.injEq] at heq
          exact ⟨heq.2.2.1.symm, heq.2.1.symm⟩

/-- Witness for C7 with the all-zero device oracle: a 100-bit scan is a
single call, an 8200-bit scan splits into `(0, 8192)` and `(1024, 8)`,
and a 16-bit `shift:` performs exactly the single chunked call. -/
theorem C7_chunked_scan_witness :
    (ftdiChunkedCalls 100 1024 = [(0, 100)] ∧
     ftdiChunkedTdo (fun _ b => List.replicate ((b + 7) / 8) 0) 100 1024 =
       (fun _ b => List.replicate ((b + 7) / 8) 0) 0 100) ∧
    (ftdiChunkedCalls 8200 1024 =
      (List.range ((8200 + 8191) / 8192)).map
        (fun i => (1024 * i, min 8192 (8200 - 8192 * i))) ∧
     ftdiChunkedTdo (fun _ b => List.replicate ((b + 7) / 8) 0) 8200 1024 =
       ((ftdiChunkedCalls 8200 1024).map
         (fun oc => ((fun _ b => List.replicate ((b + 7) / 8) 0) oc.1 oc.2).take
           ((oc.2 + 7) / 8))).join) ∧
    (([((0 : Nat), (16 : Nat))] : List (Nat × Nat)) =
       ftdiChunkedCalls (Int.toNat 16) 1024 ∧
     ([0, 0] : List Nat) = ftdiChunkedTdo
       (fun _ b => List.replicate ((b + 7) / 8) 0) (Int.toNat 16) 1024) :=
  ⟨(C7_chunked_scan (fun _ b => List.replicate ((b + 7) / 8) 0)
      (by intro off bl; simp)).1 100 (by decide),
   (C7_chunked_scan (fun _ b => List.replicate ((b + 7) / 8) 0)
      (by intro off bl; simp)).2.1 8200 (by decide),
   (C7_chunked_scan (fun _ b => List.replicate ((b + 7) / 8) 0)
      (by intro off bl; simp)).2.2 ⟨.shiftDR, false, 2048⟩ 16 [0, 0] [0, 0]
      ⟨.shiftDR, false, 2048⟩ [0, 0] [(0, 16)] false (by decide) (by decide)⟩

/-- Counterexample for C8: the session starts in Test-Logic-Reset (so the
TAP has visited TLR), a first shift ends in Capture-DR, a second shift
starts there (clearing the latch) and ends in Run-Test-Idle, and a third
shift starts in Run-Test-Idle with the latch still false: the code keeps
reading commands (final stop flag false, `seen_tlr` false), while the
claim's latch — true once TLR was visited, except when currently in a
Capture state — is true at Run-Test-Idle, so under the claim the loop
would have reached the resting condition and stopped. -/
theorem C8_tlr_loop_counterexample :
    xvc_run_shifts (fun _ b => List.replicate ((b + 7) / 8) 0)
        ⟨.testLogicReset, false, 2048⟩ false
        [(3, [2], [0]), (3, [3], [0]), (1, [0], [0])] =
      some (⟨.runTestIdle, false, 2048⟩, false) ∧
    seenTlrClaim true .runTestIdle = true := by
  decide

/-- C8 (amended): after each shift the loop reads the next command iff
the stop flag `seen_tlr && state == Run-Test-Idle` is false, where both
are taken from the updated session; `seen_tlr` is recomputed at the start
of each shift from the state `s` the TAP is in at that moment as
`(seen_tlr || s == TLR) && s != Capture-DR && s != Capture-IR` — so a
shift starting in a Capture state clears the latch, and it stays false
until a later shift again starts in Test-Logic-Reset. -/
theorem C8_tlr_loop_amended (ctx : XvcCtx) (f : Nat → Nat → List Nat)
    (len : Int) (tms tdi : List Nat) (ctx2 : XvcCtx) (tdo : List Nat)
    (scans : List (Nat × Nat)) (stop : Bool)
    (heq : xvc_shift ctx f len tms tdi = .reply ctx2 tdo scans stop) :
    ctx2.seenTlr = ((ctx.seenTlr || ctx.jtagState == .testLogicReset) &&
      !(ctx.jtagState == .captureDR) && !(ctx.jtagState == .captureIR)) ∧
    stop = (ctx2.seenTlr && ctx2.jtagState == .runTestIdle) := by
  simp only [xvc_shift] at heq
  split at heq
  · exact absurd heq (by simp)
  · split at heq
    · rw [XvcOutcome.reply.injEq] at heq
      obtain ⟨h1, h2, h3, h4⟩ := heq
      subst h1
      subst h4
      exact ⟨rfl, rfl⟩
    · split at heq
      · exact absurd heq (by simp)
      · rw [XvcOutcome.reply.injEq] at heq
        obtain ⟨h1, h2, h3, h4⟩ := heq
        subst h1
        subst h4
        exact ⟨rfl, rfl⟩

/-- Witness for C8 (amended): a 3-bit shift from Test-Logic-Reset sets the
latch and lands in Capture-DR with the loop continuing. -/
theorem C8_tlr_loop_amended_witness :
    (⟨.captureDR, true, 2048⟩ : XvcCtx).seenTlr =
      ((false || ((JState.testLogicReset) == JState.testLogicReset)) &&
        !((JState.testLogicReset) == JState.captureDR) &&
        !((JState.testLogicReset) == JState.captureIR)) ∧
    false = ((⟨.captureDR, true, 2048⟩ : XvcCtx).seenTlr &&
      ((⟨.captureDR, true, 2048⟩ : XvcCtx).jtagState == JState.runTestIdle)) :=
  C8_tlr_loop_amended ⟨.testLogicReset, false, 2048⟩
    (fun _ b => List.replicate ((b + 7) / 8) 0) 3 [2] [0]
    ⟨.captureDR, true, 2048⟩ [0] [(0, 3)] false (by decide)

/-- C9: with the TAP in Exit1-IR and a request of `len = 5` whose first
TMS byte is `0x17`, or the TAP in Exit1-DR and a request of `len = 4`
whose first TMS byte is `0x0b`, the shift is dropped: no scan is
performed (empty scan list), the session's TAP state is unchanged, and
the reply is `ceil(len/8)` all-zero TDO bytes. -/
theorem C9_xilinx_skip (ctx : XvcCtx) (f : Nat → Nat → List Nat) (len : Int)
    (tms tdi : List Nat) (hmax : 1 ≤ ctx.maxVectorSize)
    (hskip : (ctx.jtagState = .exit1IR ∧ len = 5 ∧ tms.getD 0 0 = 0x17) ∨
             (ctx.jtagState = .exit1DR ∧ len = 4 ∧ tms.getD 0 0 = 0x0b)) :
    xvc_shift ctx f len tms tdi =
      .reply ⟨ctx.jtagState,
          (ctx.seenTlr || ctx.jtagState == .testLogicReset) &&
            !(ctx.jtagState == .captureDR) && !(ctx.jtagState == .captureIR),
          ctx.maxVectorSize⟩
        (List.replicate ((len + 7).tdiv 8).toNat 0) []
        (((ctx.seenTlr || ctx.jtagState == .testLogicReset) &&
            !(ctx.jtagState == .captureDR) && !(ctx.jtagState == .captureIR)) &&
          ctx.jtagState == .runTestIdle) := by
  rcases hskip with ⟨hs, rfl, ht⟩ | ⟨hs, rfl, ht⟩
  · have hnr : ((5 : Int) + 7).tdiv 8 = 1 := by decide
    simp only [xvc_shift, hs, ht, hnr]
    split
    · next h => exact absurd h (by omega)
    · split
      · rfl
      · next h => exact absurd (by decide) h
  · have hnr : ((4 : Int) + 7).tdiv 8 = 1 := by decide
    simp only [xvc_shift, hs, ht, hnr]
    split
    · next h => exact absurd h (by omega)
    · split
      · rfl
      · next h => exact absurd (by decide) h

/-- Witness for C9: a `len = 5` shift from Exit1-IR with first TMS byte
`0x17` is dropped with a single zero reply byte, unchanged state and no
scan. -/
theorem C9_xilinx_skip_witness :
    xvc_shift ⟨.exit1IR, false, 2048⟩
        (fun _ b => List.replicate ((b + 7) / 8) 0) 5 [23] [0] =
      .reply ⟨.exit1IR, false, 2048⟩ [0] [] false :=
  C9_xilinx_skip ⟨.exit1IR, false, 2048⟩
    (fun _ b => List.replicate ((b + 7) / 8) 0) 5 [23] [0] (by decide)
    (Or.inl ⟨rfl, rfl, rfl⟩)

/-- C10: a request whose 2-byte tag is none of `ge`, `se`, `sh` makes the
handler return the connection-error outcome (no scan, no reply), and a
`shift:` request whose byte length `ceil(len/8)` exceeds
`max_vector_size` does the same before any scan. -/
theorem C10_malformed_errors :
    (∀ (ctx : XvcCtx) (f : Nat → Nat → List Nat) (tck : List Nat)
        (b0 b1 : Nat) (rest : List Nat),
      ¬((b0 = 103 ∧ b1 = 101) ∨ (b0 = 115 ∧ b1 = 101) ∨
          (b0 = 115 ∧ b1 = 104)) →
      xvc_dispatch ctx f tck b0 b1 rest = .connErr) ∧
    (∀ (ctx : XvcCtx) (f : Nat → Nat → List Nat) (len : Int)
        (tms tdi : List Nat),
      (ctx.maxVectorSize : Int) < (len + 7).tdiv 8 →
      xvc_shift ctx f len tms tdi = .connErr) := by
  constructor
  · intro ctx f tck b0 b1 rest h
    simp only [xvc_dispatch]
    rw [if_neg (fun hc => h (Or.inl hc)),
      if_neg (fun hc => h (Or.inr (Or.inl hc))),
      if_neg (fun hc => h (Or.inr (Or.inr hc)))]
  · intro ctx f len tms tdi h
    simp only [xvc_shift]
    rw [if_pos h]

/-- Witness for C10: the unknown tag `"ba"` closes the connection, and a
16-bit shift against `max_vector_size = 0` closes the connection before
any scan. -/
theorem C10_malformed_errors_witness :
    xvc_dispatch ⟨.shiftDR, false, 2048⟩
        (fun _ b => List.replicate ((b + 7) / 8) 0) [] 98 97 [] = .connErr ∧
    xvc_shift ⟨.shiftDR, false, 0⟩
        (fun _ b => List.replicate ((b + 7) / 8) 0) 16 [0, 0] [0, 0] =
      .connErr :=
  ⟨C10_malformed_errors.1 ⟨.shiftDR, false, 2048⟩
      (fun _ b => List.replicate ((b + 7) / 8) 0) [] 98 97 [] (by decide),
   C10_malformed_errors.2 ⟨.shiftDR, false, 0⟩
      (fun _ b => List.replicate ((b + 7) / 8) 0) 16 [0, 0] [0, 0] (by decide)⟩

end XvcD2xx
